import Mathlib

/-!
# nightly-lambda: a verification development

A shallow embedding of `type_list.h` and `NightlyLambda.h`.

The library computes on C++ types: a term of the lambda calculus is a class
template instantiation and every rewrite rule is a type-level function. Here a
type pack is a `List`, a term is a value of the inductive type `Term`, and every
`struct` template with a member `type` is a function returning that member
(paired with `has_effect` where the struct has one). `std::is_same_v` is
decidable equality.

Names follow the source; a leading underscore of the source is dropped
(`_Full_reduction_impl` is `Full_reduction_impl`).
-/

set_option autoImplicit false

/-! ## type_list.h -/

namespace std_ext

/-- The `std::make_index_sequence<N>` of the standard library: `0, 1, ..., N-1`. -/
def make_index_sequence (n : Nat) : List Nat := List.range n

/-- The struct `_Choose_integer_sequence_impl<_ResSeq, _Int, _Pred, _Integers...>`:
walks the integers left to right; an integer that satisfies `_Pred` is placed at
the end of `_ResSeq` (`place_before<_First>` of `_Value_sequence_forward`). -/
def Choose_integer_sequence_impl (pred : Nat → Bool) : List Nat → List Nat → List Nat
  | res, [] => res
  | res, first :: rest =>
      Choose_integer_sequence_impl pred (if pred first then res ++ [first] else res) rest

/-- The alias `choose_index_sequence<_IndexSeq, _Pred>`: starts from the empty
`std::integer_sequence`. -/
def choose_index_sequence (seq : List Nat) (pred : Nat → Bool) : List Nat :=
  Choose_integer_sequence_impl pred [] seq

/-- The struct `_Find_type_impl<_Item, _K, _Types...>`: `some index` when
`has_found` is true, `none` when `has_found` is false. -/
def Find_type_impl {α : Type} [DecidableEq α] (item : α) : Nat → List α → Option Nat
  | _, [] => none
  | k, first :: rest => if first = item then some k else Find_type_impl item (k + 1) rest

/-- The alias `_Find_type<_Item, _Args...>`: the search starts at index 0. -/
def Find_type {α : Type} [DecidableEq α] (item : α) (args : List α) : Option Nat :=
  Find_type_impl item 0 args

namespace type_list

/-- The member `type_list::size`. -/
def size {α : Type} (args : List α) : Nat := args.length

/-- The member `type_list::get<_Index>`, a `std::tuple_element_t`: `none` stands
for an index outside the list, where the instantiation is ill-formed. -/
def get {α : Type} (args : List α) (index : Nat) : Option α := args.get? index

/-- The pack expansion `std::tuple_element_t<_Indices, tuple_type>...`: ill-formed
as soon as one index is outside the list. -/
def tuple_elements {α : Type} (args : List α) : List Nat → Option (List α)
  | [] => some []
  | i :: rest =>
      match get args i, tuple_elements args rest with
      | some x, some xs => some (x :: xs)
      | _, _ => none

/-- The member `type_list::choose<_Indices...>`; the specialisation `type_list<>`
answers `type_list<>` for every index list. -/
def choose {α : Type} (args : List α) (indices : List Nat) : Option (List α) :=
  match args with
  | [] => some []
  | _ :: _ => tuple_elements args indices

/-- The member `type_list::concat<_Other>`: `type_forward_after_t` places this
list's types before the types of `_Other`. -/
def concat {α : Type} (args other : List α) : List α := args ++ other

/-- The member `type_list::contains<_Item>`: `has_found` of `_Find_type`; the
specialisation `type_list<>` answers false. -/
def contains {α : Type} [DecidableEq α] (args : List α) (item : α) : Bool :=
  match args with
  | [] => false
  | _ :: _ => (Find_type item args).isSome

end type_list

/-- The struct `_Extract_and_choose<_TypeList, std::index_sequence<_Indices...>>`. -/
def Extract_and_choose {α : Type} (typeList : List α) (indices : List Nat) :
    Option (List α) :=
  type_list.choose typeList indices

/-- The member `_Remove_completely::_Is_not_item<_Index>::value`. -/
def Is_not_item {α : Type} [DecidableEq α] (item : α) (typeList : List α)
    (index : Nat) : Bool :=
  !decide (type_list.get typeList index = some item)

/-- The struct `_Remove_completely<_Item, _TypeList>`: chooses, among the indices
`0 .. size-1`, those whose element is not `_Item`, and extracts them. -/
def Remove_completely {α : Type} [DecidableEq α] (item : α) (typeList : List α) :
    Option (List α) :=
  Extract_and_choose typeList
    (choose_index_sequence (make_index_sequence (type_list.size typeList))
      (Is_not_item item typeList))

/-- The member `type_list::remove_completely<_Item>`; the specialisation
`type_list<>` answers `type_list<>`. The instantiation of `_Remove_completely`
is well-formed for every list (`Remove_completely_eq_filter` below), so the
default of `getD` is never taken. -/
def type_list.remove_completely {α : Type} [DecidableEq α] (args : List α) (item : α) :
    List α :=
  match args with
  | [] => []
  | _ :: _ => (Remove_completely item args).getD []

/-- The struct `_Remove_duplicates<_First, _Rest...>`: clears `_First` from the
rest, removes the duplicates of what is left, and puts `_First` in front. The
pack handed to the next instantiation is never longer than `_Rest...`, so the
number of nested instantiations is at most the number of types; `depth` is that
bound, and it is never exhausted before the pack is empty
(`Remove_duplicates_impl_eq` below). -/
def Remove_duplicates_impl {α : Type} [DecidableEq α] : Nat → List α → List α
  | 0, _ => []
  | _ + 1, [] => []
  | depth + 1, first :: rest =>
      first :: Remove_duplicates_impl depth (type_list.remove_completely rest first)

/-- The struct `_Remove_duplicates<_Types...>` on a whole pack. -/
def Remove_duplicates {α : Type} [DecidableEq α] (types : List α) : List α :=
  Remove_duplicates_impl types.length types

/-- The member `type_list::remove_duplicates`. -/
def type_list.remove_duplicates {α : Type} [DecidableEq α] (args : List α) : List α :=
  Remove_duplicates args

/-- The `std::make_integer_sequence<_Int, N>` of the standard library. -/
def make_integer_sequence (n : Nat) : List Nat := List.range n

/-- The struct `_Make_integer_range_impl<_Int, _StartIndex, _Integers...>`: drops
integers until it finds `_StartIndex` and answers the pack from there on; the
empty sequence when `_StartIndex` is not in the pack. -/
def Make_integer_range_impl (startIndex : Nat) : List Nat → List Nat
  | [] => []
  | first :: rest =>
      if first = startIndex then first :: rest else Make_integer_range_impl startIndex rest

/-- The alias `make_integer_range<_Int, _StartIndex, _EndIndex>`: the range
`[_StartIndex, _EndIndex)`, cut out of `std::make_integer_sequence<_Int, _EndIndex>`. -/
def make_integer_range (startIndex endIndex : Nat) : List Nat :=
  Make_integer_range_impl startIndex (make_integer_sequence endIndex)

/-- The alias `concat_integer_sequences<_Int, _IntSeq1, _IntSeq2>`: `place_before`
puts the integers of the second sequence after those of the first. -/
def concat_integer_sequences (seq1 seq2 : List Nat) : List Nat := seq1 ++ seq2

/-- The struct `_Invert_integer_sequence_impl<_ResSeq, _Int, _Integers...>`: for two
neighbours `_First`, `_Second` it appends the range `[_First + 1, _Second)` to
`_ResSeq` (nothing when `_First + 1 == _Second`) and goes on from `_Second`; with
fewer than two integers left it answers `_ResSeq`. The integers are positions of
a pack, so `_First + 1` does not wrap. -/
def Invert_integer_sequence_impl : List Nat → List Nat → List Nat
  | res, first :: second :: rest =>
      Invert_integer_sequence_impl
        (if first + 1 = second then res
          else concat_integer_sequences res (make_integer_range (first + 1) second))
        (second :: rest)
  | res, [_] => res
  | res, [] => res

/-- The struct `_Invert_integer_sequence<_Int, _IntSeq>`: starts from the integers
below `_First`. The primary template, which an empty sequence selects, has no
member `type`: `none`. -/
def Invert_integer_sequence : List Nat → Option (List Nat)
  | [] => none
  | first :: integers =>
      some (Invert_integer_sequence_impl
        (if first = 0 then [] else make_integer_sequence first) (first :: integers))

/-- The alias `invert_index_sequence<_IndexSeq>` (the source notes: assuming
ascending order). -/
def invert_index_sequence (indexSeq : List Nat) : Option (List Nat) :=
  Invert_integer_sequence indexSeq

/-- The struct `_Remove_at<_TypeList, _Indices...>`: extracts the positions that
`invert_index_sequence` answers for the indices followed by the size of the
list; without indices it answers the list. -/
def Remove_at {α : Type} (typeList : List α) (indices : List Nat) : Option (List α) :=
  match indices with
  | [] => some typeList
  | _ :: _ =>
      match invert_index_sequence (indices ++ [type_list.size typeList]) with
      | none => none
      | some inverted => Extract_and_choose typeList inverted

/-- The member `type_list::remove_at<_Indices...>`. The specialisation
`type_list<>` declares no such member: `none`. -/
def type_list.remove_at {α : Type} (args : List α) (indices : List Nat) :
    Option (List α) :=
  match args with
  | [] => none
  | _ :: _ => Remove_at args indices

/-- Reference of the specification for `deduplicate()`: walk the sequence from
the left and keep a value exactly when it has not been seen before. -/
def keep_first_occurrences {α : Type} [DecidableEq α] : List α → List α → List α
  | _, [] => []
  | seen, x :: rest =>
      if x ∈ seen then keep_first_occurrences seen rest
      else x :: keep_first_occurrences (x :: seen) rest

/-- Reference of the specification for `removeAt(indices...)`, from position
`position` on: walk the sequence with a position counter and drop an element
exactly when its position is among the indices. -/
def remove_positions_from {α : Type} (indices : List Nat) : Nat → List α → List α
  | _, [] => []
  | position, x :: rest =>
      if position ∈ indices then remove_positions_from indices (position + 1) rest
      else x :: remove_positions_from indices (position + 1) rest

/-- Reference of the specification for `removeAt(indices...)`: the sequence
without the elements at the given positions, the other elements once each in
their original order. -/
def remove_positions {α : Type} (s : List α) (indices : List Nat) : List α :=
  remove_positions_from indices 0 s

end std_ext

/-! ## NightlyLambda.h -/

namespace nightly_lambda

open std_ext

/-- An identifier: the class `variable_node<_N>` or the class `shadowed<_VarTy>`
over an identifier (itself possibly a shadow; the source's `original`). The
source restricts `_N` to `number < 26` through the member `alpha`. -/
inductive Ident : Type
  | variable_node (number : Nat)
  | shadowed (original : Ident)
  deriving DecidableEq

/-- A term: an identifier used as an expression, `lambda_node<_VarTy, _ExprTy>`
or `application_node<_FuncTy, _ArgTy>`. -/
inductive Term : Type
  | var (v : Ident)
  | lambda_node (prim : Ident) (sec : Term)
  | application_node (prim : Term) (sec : Term)
  deriving DecidableEq

/-- The constant `names::a`, a `variable_node<0>`. -/
def names.a : Ident := .variable_node 0

/-- The constant `names::w`, a `variable_node<22>`. -/
def names.w : Ident := .variable_node 22

/-- The constant `names::x`, a `variable_node<23>`. -/
def names.x : Ident := .variable_node 23

/-- The constant `names::y`, a `variable_node<24>`. -/
def names.y : Ident := .variable_node 24

/-- The constant `names::z`, a `variable_node<25>`. -/
def names.z : Ident := .variable_node 25

/-- The class `subst<_VarTy, _ExprTy>`, made by `operator<=`: the target
identifier `prim` and the replacement `sec`. -/
structure subst : Type where
  prim : Ident
  sec : Term
  deriving DecidableEq

/-- The free function `symb_eq`: `std::is_same_v` of the two `self` types, each
named through its own class (`typename _Ty1::self`, `typename _Ty2::self`). -/
def symb_eq (left right : Term) : Bool := decide (left = right)

/-- The `variable_node` class that an identifier class derives from:
`shadowed<_VarTy>` derives from `_VarTy`, so a shadow of a shadow of `v` still has
the base class of `v`. -/
def variable_base : Ident → Ident
  | .variable_node n => .variable_node n
  | .shadowed original => variable_base original

/-- The member `self` of `_Node_base<_Self>`, which is what the name `self` means
inside the member functions of `_Node_base`: the class that instantiated the
base. A `lambda_node` and an `application_node` derive from their own
`_Node_base`; `shadowed<_VarTy>` derives from `_VarTy` and declares a `self` of
its own, which the members of the base do not see, so for a shadow the base's
`self` is the `variable_node` at the root of the chain of `original`s. -/
def Node_base.self : Term → Term
  | .var v => .var (variable_base v)
  | .lambda_node v e => .lambda_node v e
  | .application_node f a => .application_node f a

/-- The member function `_Node_base::symb_eq` called on the object `left`:
`std::is_same_v<self, typename _Right::self>` with the base's `self`. -/
def Node_base.symb_eq (left right : Term) : Bool := decide (Node_base.self left = right)

/-- The struct `free_variables<_ExprTy>` with its specialisations for
`lambda_node` and `application_node`. -/
def free_variables : Term → List Ident
  | .var v => [v]
  | .lambda_node v e => type_list.remove_completely (free_variables e) v
  | .application_node f a =>
      type_list.remove_duplicates (type_list.concat (free_variables f) (free_variables a))

/-- The struct `substitution_result<_Self, _SubstTy>` with its specialisations:
- a variable equal to the target becomes the replacement;
- a `lambda_node` whose parameter is the target is returned as it is; otherwise
  its parameter becomes `shadowed<_Param>` when `_Param` is among the free
  variables of the replacement, and the substitution goes into the body;
- an `application_node` substitutes in both parts. -/
def substitution_result : Term → subst → Term
  | .var v, s => if v = s.prim then s.sec else .var v
  | .lambda_node v e, s =>
      let substFreeVars := free_variables s.sec
      let shadowParamIfNeeded :=
        if type_list.contains substFreeVars v then Ident.shadowed v else v
      if v = s.prim then .lambda_node v e
      else .lambda_node shadowParamIfNeeded (substitution_result e s)
  | .application_node f a, s =>
      .application_node (substitution_result f s) (substitution_result a s)

/-- The struct `beta_reduction<_Self, _ArgTy>` and its specialisation for a
`lambda_node`: the member `type` and the member `has_effect`. -/
def beta_reduction : Term → Term → Term × Bool
  | .lambda_node v e, a => (substitution_result e ⟨v, a⟩, true)
  | .var v, a => (.application_node (.var v) a, false)
  | .application_node f b, a => (.application_node (.application_node f b) a, false)

/-- The struct `eta_reduction<_VarTy, _ExprTy>` and its specialisation for an
`application_node`: the member `type` and the member `has_effect`. -/
def eta_reduction : Ident → Term → Term × Bool
  | v, .application_node f a =>
      let funcFreeVars := free_variables f
      let has_effect := decide (Term.var v = a) && !type_list.contains funcFreeVars v
      (if has_effect then f else .lambda_node v (.application_node f a), has_effect)
  | v, .var w => (.lambda_node v (.var w), false)
  | v, .lambda_node w e => (.lambda_node v (.lambda_node w e), false)

/-- The struct `_Full_reduction_impl<_ExprTy>`: one bottom-up reduction pass. -/
def Full_reduction_impl : Term → Term
  | .var v => .var v
  | .lambda_node v e => (eta_reduction v (Full_reduction_impl e)).1
  | .application_node f a =>
      (beta_reduction (Full_reduction_impl f) (Full_reduction_impl a)).1

/-- The struct `is_irreducible<_ExprTy>`: the pass returns the very same type. -/
def is_irreducible (e : Term) : Bool := decide (e = Full_reduction_impl e)

/-- The struct `full_reduction<_ExprTy>`: returns an irreducible term, otherwise
reduces once and starts again. The source has no bound on the number of rounds;
`fuel` counts the instantiations of `full_reduction`, and `none` means the fuel
ran out. -/
def full_reduction : Nat → Term → Option Term
  | 0, _ => none
  | fuel + 1, e =>
      if is_irreducible e then some e
      else full_reduction fuel (Full_reduction_impl e)

/-- The member `_Node_base::operator()`: full reduction of the application node;
`self` is the `self` of `_Node_base`. -/
def Node_base.operator_call (fuel : Nat) (self arg : Term) : Option Term :=
  full_reduction fuel (.application_node self arg)

/-- The member `_Node_base::operator[]`: the substitution result, as it is; `self`
is the `self` of `_Node_base`. -/
def Node_base.operator_index (self : Term) (s : subst) : Term :=
  substitution_result self s

/-- The function `lambda(var, expr)`: one eta attempt on the new node. -/
def lambda (v : Ident) (e : Term) : Term := (eta_reduction v e).1

/-- The function `evaluate`: full reduction. -/
def evaluate (fuel : Nat) (e : Term) : Option Term := full_reduction fuel e

/-- The struct `is_shadowed<_Ty>` on identifiers. -/
def is_shadowed : Ident → Bool
  | .variable_node _ => false
  | .shadowed _ => true

/-- The struct `alpha_relation<_ExprTy, _OldName, _NewName>` with its
specialisations, the member `type` and the member `has_effect`:
- a variable is returned as it is;
- a `lambda_node` whose parameter is `_OldName` gets the parameter `_NewName` and
  the body with `_NewName` substituted for `_OldName`; another `lambda_node`
  keeps its parameter and renames in its body;
- an `application_node` takes the renamed function part when renaming has an
  effect there, otherwise the renamed argument part. -/
def alpha_relation : Term → Ident → Ident → Term × Bool
  | .var v, _, _ => (.var v, false)
  | .lambda_node v e, oldName, newName =>
      let reduce_body := alpha_relation e oldName newName
      (if oldName = v then
          .lambda_node newName (substitution_result e ⟨oldName, .var newName⟩)
        else .lambda_node v reduce_body.1,
        decide (oldName = v) || reduce_body.2)
  | .application_node f a, oldName, newName =>
      let type1 := alpha_relation f oldName newName
      let type2 := alpha_relation a oldName newName
      (if type1.2 then .application_node type1.1 a
        else if type2.2 then .application_node f type2.1
        else .application_node f a,
        type1.2 || type2.2)

/-- The member `_Node_base::rename`: the `type` of `alpha_relation`; `self` is the
`self` of `_Node_base`. -/
def Node_base.rename (self : Term) (oldName newName : Ident) : Term :=
  (alpha_relation self oldName newName).1

/-- What the member `remaining_names` of an `_Unshadow` struct names: a
`type_list` of names or, in the specialisation for a `lambda_node` with a
shadowed parameter, the struct `_Unshadow<type, type_list<_Rest...>>` itself. -/
inductive Remaining_names : Type
  | type_list (names : List Ident)
  | Unshadow (e : Term) (names : List Ident)
  deriving DecidableEq

/-- The members of an instantiated `_Unshadow` struct. -/
structure Unshadow_members : Type where
  has_effect : Bool
  type : Term
  remaining_names : Remaining_names
  deriving DecidableEq

/-- The struct `_Unshadow<_ExprTy, _NameList>` on a `type_list` of names, `none`
when the instantiation is ill-formed:
- the specialisation for a `lambda_node` with a shadowed parameter and a first
  name answers `alpha_relation_t<_ExprTy, shadowed<_VarTy>, _First>`, the
  renaming applied to the body `_ExprTy`;
- the specialisation for an `application_node` and a first name starts with
  `typename _FuncTy::type`; the node classes declare `self`, `tag`, `prim`,
  `sec`, `rebind`, `number`, `alpha`, `original` and `_Char_seq_rep` and no
  member `type`, so the instantiation is ill-formed for every function part;
- the primary template takes every other case (a variable, a `lambda_node`
  with a plain parameter, an empty name list): the expression as it is, all
  names remaining. -/
def Unshadow : Term → List Ident → Option Unshadow_members
  | .lambda_node (.shadowed v) e, first :: rest =>
      some ⟨true, (alpha_relation e (.shadowed v) first).1,
        .Unshadow (alpha_relation e (.shadowed v) first).1 rest⟩
  | .application_node _ _, _ :: _ => none
  | .var v, names => some ⟨false, .var v, .type_list names⟩
  | .lambda_node (.variable_node n) e, names =>
      some ⟨false, .lambda_node (.variable_node n) e, .type_list names⟩
  | .lambda_node (.shadowed v) e, [] =>
      some ⟨false, .lambda_node (.shadowed v) e, .type_list []⟩
  | .application_node f a, [] => some ⟨false, .application_node f a, .type_list []⟩

/-- The member `_Node_base::unshadow`: the `type` of `_Unshadow` on `self` and the
`type_list` of the names; `self` is the `self` of `_Node_base`. -/
def Node_base.unshadow (self : Term) (names : List Ident) : Option Term :=
  (Unshadow self names).map (fun u => u.type)

/-- Reference of the specification: the term contains a shadow identifier, as the
parameter of an Abstraction or as a Variable. -/
def has_shadow : Term → Bool
  | .var v => is_shadowed v
  | .lambda_node v e => is_shadowed v || has_shadow e
  | .application_node f a => has_shadow f || has_shadow a

/-- Whether some instantiation of `beta_reduction` or `eta_reduction` made by
the pass `_Full_reduction_impl` on this term has `has_effect` true: the
disjunction of the `has_effect` members over all nodes of the term. -/
def pass_has_effect : Term → Bool
  | .var _ => false
  | .lambda_node v e =>
      pass_has_effect e || (eta_reduction v (Full_reduction_impl e)).2
  | .application_node f a =>
      pass_has_effect f || pass_has_effect a
        || (beta_reduction (Full_reduction_impl f) (Full_reduction_impl a)).2

/-- Whether some instantiation of `beta_reduction` made by the pass
`_Full_reduction_impl` on this term has `has_effect` true. -/
def pass_beta_effect : Term → Bool
  | .var _ => false
  | .lambda_node _ e => pass_beta_effect e
  | .application_node f a =>
      pass_beta_effect f || pass_beta_effect a
        || (beta_reduction (Full_reduction_impl f) (Full_reduction_impl a)).2

/-- The number of nodes of a term. -/
def node_count : Term → Nat
  | .var _ => 1
  | .lambda_node _ e => node_count e + 1
  | .application_node f a => node_count f + node_count a + 1

/-! ### Reference notions of the specification -/

/-- Reference notion: the parameters of the Abstraction nodes of a term, in the
order in which a depth-first walk enters them (an Abstraction before its body,
the function part of an Application before its argument part). -/
def binders : Term → List Ident
  | .var _ => []
  | .lambda_node v e => v :: binders e
  | .application_node f a => binders f ++ binders a

/-- Reference notion: the identifiers at the Variable leaves of a term, from left
to right. -/
def variable_leaves : Term → List Ident
  | .var v => [v]
  | .lambda_node _ e => variable_leaves e
  | .application_node f a => variable_leaves f ++ variable_leaves a

/-- Reference predicate of the specification: the identifier has a free
occurrence in the term, that is an occurrence `Variable(v)` that is not
underneath an Abstraction whose parameter is `v`. -/
inductive FreeIn (v : Ident) : Term → Prop
  | var : FreeIn v (.var v)
  | lam {p : Ident} {e : Term} : p ≠ v → FreeIn v e → FreeIn v (.lambda_node p e)
  | appFunc {f a : Term} : FreeIn v f → FreeIn v (.application_node f a)
  | appArg {f a : Term} : FreeIn v a → FreeIn v (.application_node f a)

/-- Reference predicate of the specification: the term contains a redex, a
beta-redex `Application(Abstraction(_, _), _)` or an eta-redex
`Abstraction(v, Application(f, Variable v))` with `v` not free in `f`, at the
root or anywhere inside. A normal form is a term without a redex. -/
inductive HasRedex : Term → Prop
  | beta (v : Ident) (e a : Term) : HasRedex (.application_node (.lambda_node v e) a)
  | eta (v : Ident) (f : Term) : ¬ FreeIn v f →
      HasRedex (.lambda_node v (.application_node f (.var v)))
  | inLambda {v : Ident} {e : Term} : HasRedex e → HasRedex (.lambda_node v e)
  | inFunc {f a : Term} : HasRedex f → HasRedex (.application_node f a)
  | inArg {f a : Term} : HasRedex a → HasRedex (.application_node f a)

end nightly_lambda

/-! ## Facts about the list utilities -/

namespace std_ext

/-- The accumulator of `Choose_integer_sequence_impl` receives the chosen integers in order. -/
theorem Choose_integer_sequence_impl_eq (pred : Nat → Bool) (res seq : List Nat) :
    Choose_integer_sequence_impl pred res seq = res ++ seq.filter pred := by
  induction seq generalizing res with
  | nil => simp [Choose_integer_sequence_impl]
  | cons i rest ih =>
      by_cases h : pred i = true
      · simp [Choose_integer_sequence_impl, ih, h]
      · simp [Choose_integer_sequence_impl, ih, h]

/-- Extraction of shifted indices from a list with one more element in front. -/
theorem tuple_elements_cons_succ {α : Type} (x : α) (l : List α) (idx : List Nat) :
    type_list.tuple_elements (x :: l) (idx.map Nat.succ) = type_list.tuple_elements l idx := by
  induction idx with
  | nil => rfl
  | cons i rest ih => simp [type_list.tuple_elements, type_list.get, ih]

/-- Extracting the positions whose element is not `item` keeps exactly the
elements different from `item`, in order. -/
theorem tuple_elements_filter {α : Type} [DecidableEq α] (item : α) (l : List α) :
    type_list.tuple_elements l ((List.range l.length).filter (Is_not_item item l))
      = some (l.filter (fun y => !decide (y = item))) := by
  induction l with
  | nil => rfl
  | cons x l ih =>
      have hshift : (Is_not_item item (x :: l)) ∘ Nat.succ = Is_not_item item l := by
        funext i
        simp [Is_not_item, type_list.get]
      rw [List.length_cons, List.range_succ_eq_map, List.filter_cons, List.filter_map, hshift]
      by_cases hx : x = item
      · simp [Is_not_item, type_list.get, hx, ih, tuple_elements_cons_succ]
      · simp [Is_not_item, type_list.get, hx, ih, type_list.tuple_elements,
          tuple_elements_cons_succ]

/-- The struct `_Remove_completely` is well-formed on every list and keeps the
elements different from the item. -/
theorem Remove_completely_eq_filter {α : Type} [DecidableEq α] (item : α) (l : List α) :
    Remove_completely item l = some (l.filter (fun y => !decide (y = item))) := by
  cases l with
  | nil => rfl
  | cons x l =>
      simp only [Remove_completely, Extract_and_choose, type_list.choose,
        choose_index_sequence, make_index_sequence, type_list.size,
        Choose_integer_sequence_impl_eq, List.nil_append]
      exact tuple_elements_filter item (x :: l)

/-- The member `remove_completely` is the filter that drops the item. -/
theorem remove_completely_eq_filter {α : Type} [DecidableEq α] (l : List α) (item : α) :
    type_list.remove_completely l item = l.filter (fun y => !decide (y = item)) := by
  cases l with
  | nil => rfl
  | cons x l => simp only [type_list.remove_completely, Remove_completely_eq_filter, Option.getD_some]

end std_ext

namespace std_ext

/-- The search `_Find_type_impl` finds the item exactly when it is in the pack. -/
theorem Find_type_impl_isSome {α : Type} [DecidableEq α] (item : α) (k : Nat) (l : List α) :
    (Find_type_impl item k l).isSome = true ↔ item ∈ l := by
  induction l generalizing k with
  | nil => simp [Find_type_impl]
  | cons x l ih =>
      by_cases hx : x = item
      · simp [Find_type_impl, hx]
      · have hne : ¬ item = x := fun h => hx h.symm
        simp [Find_type_impl, hx, hne, ih]

/-- The member `contains` is list membership. -/
theorem contains_iff {α : Type} [DecidableEq α] (l : List α) (item : α) :
    type_list.contains l item = true ↔ item ∈ l := by
  cases l with
  | nil => simp [type_list.contains]
  | cons x l => simp only [type_list.contains, Find_type, Find_type_impl_isSome]

/-- The member `contains` answers false exactly outside the list. -/
theorem contains_eq_false_iff {α : Type} [DecidableEq α] (l : List α) (item : α) :
    type_list.contains l item = false ↔ item ∉ l := by
  rw [← contains_iff, Bool.not_eq_true]

/-- Membership in the result of `remove_completely`. -/
theorem mem_remove_completely {α : Type} [DecidableEq α] (l : List α) (item y : α) :
    y ∈ type_list.remove_completely l item ↔ y ∈ l ∧ y ≠ item := by
  simp [remove_completely_eq_filter]

/-- With enough depth `_Remove_duplicates` keeps every member of the pack and
adds none. -/
theorem mem_Remove_duplicates_impl {α : Type} [DecidableEq α] (depth : Nat) (l : List α)
    (h : l.length ≤ depth) (y : α) : y ∈ Remove_duplicates_impl depth l ↔ y ∈ l := by
  induction depth generalizing l with
  | zero =>
      have hl : l = [] := List.length_eq_zero.mp (Nat.le_zero.mp h)
      subst hl
      simp [Remove_duplicates_impl]
  | succ n ih =>
      cases l with
      | nil => simp [Remove_duplicates_impl]
      | cons x l =>
          have hlen : (type_list.remove_completely l x).length ≤ n := by
            rw [remove_completely_eq_filter]
            exact le_trans (List.length_filter_le _ _) (Nat.le_of_succ_le_succ h)
          simp only [Remove_duplicates_impl, List.mem_cons, ih _ hlen, mem_remove_completely]
          by_cases hy : y = x
          · simp [hy]
          · simp [hy]

/-- The depth bound of `Remove_duplicates_impl` does not matter once it covers
the pack. -/
theorem Remove_duplicates_impl_depth {α : Type} [DecidableEq α] (d1 d2 : Nat) (l : List α)
    (h1 : l.length ≤ d1) (h2 : l.length ≤ d2) :
    Remove_duplicates_impl d1 l = Remove_duplicates_impl d2 l := by
  induction d1 generalizing d2 l with
  | zero =>
      have hl : l = [] := List.length_eq_zero.mp (Nat.le_zero.mp h1)
      subst hl
      cases d2 <;> rfl
  | succ n ih =>
      cases l with
      | nil => cases d2 <;> rfl
      | cons x l =>
          cases d2 with
          | zero => simp at h2
          | succ m =>
              have hlen : (type_list.remove_completely l x).length ≤ l.length := by
                rw [remove_completely_eq_filter]
                exact List.length_filter_le _ _
              simp only [Remove_duplicates_impl]
              rw [ih m _ (le_trans hlen (Nat.le_of_succ_le_succ h1))
                (le_trans hlen (Nat.le_of_succ_le_succ h2))]

/-- The depth bound is never exhausted: with any depth that covers the pack the
result is that of `_Remove_duplicates`. -/
theorem Remove_duplicates_impl_eq {α : Type} [DecidableEq α] (depth : Nat) (l : List α)
    (h : l.length ≤ depth) : Remove_duplicates_impl depth l = Remove_duplicates l :=
  Remove_duplicates_impl_depth depth l.length l h (Nat.le_refl _)

/-- The recursion of the source: `_Remove_duplicates<_First, _Rest...>` is `_First`
in front of `_Remove_duplicates` of the rest cleared of `_First`. -/
theorem Remove_duplicates_cons {α : Type} [DecidableEq α] (first : α) (rest : List α) :
    Remove_duplicates (first :: rest)
      = first :: Remove_duplicates (type_list.remove_completely rest first) := by
  have hlen : (type_list.remove_completely rest first).length ≤ rest.length := by
    rw [remove_completely_eq_filter]
    exact List.length_filter_le _ _
  simp only [Remove_duplicates, List.length_cons, Remove_duplicates_impl]
  rw [Remove_duplicates_impl_depth rest.length _ _ hlen (Nat.le_refl _)]

/-- Membership in the result of `remove_duplicates`. -/
theorem mem_remove_duplicates {α : Type} [DecidableEq α] (l : List α) (y : α) :
    y ∈ type_list.remove_duplicates l ↔ y ∈ l :=
  mem_Remove_duplicates_impl l.length l (Nat.le_refl _) y

end std_ext

/-! ## Facts about free variables, substitution and the reduction pass -/

namespace nightly_lambda

open std_ext

/-- Free variables of a variable. -/
theorem mem_free_variables_var (v w : Ident) :
    w ∈ free_variables (.var v) ↔ w = v := by
  simp [free_variables]

/-- Free variables of a `lambda_node`. -/
theorem mem_free_variables_lambda (v w : Ident) (e : Term) :
    w ∈ free_variables (.lambda_node v e) ↔ w ∈ free_variables e ∧ w ≠ v := by
  simp [free_variables, mem_remove_completely]

/-- Free variables of an `application_node`. -/
theorem mem_free_variables_application (w : Ident) (f a : Term) :
    w ∈ free_variables (.application_node f a)
      ↔ w ∈ free_variables f ∨ w ∈ free_variables a := by
  simp [free_variables, mem_remove_duplicates, type_list.concat]

/-- The computed list and the reference predicate agree. -/
theorem mem_free_variables_iff_FreeIn (t : Term) (v : Ident) :
    v ∈ free_variables t ↔ FreeIn v t := by
  induction t with
  | var w =>
      rw [mem_free_variables_var]
      constructor
      · intro h; subst h; exact FreeIn.var
      · intro h; cases h; rfl
  | lambda_node p e ih =>
      rw [mem_free_variables_lambda, ih]
      constructor
      · intro h; exact FreeIn.lam (fun hp => h.2 hp.symm) h.1
      · intro h; cases h with
        | lam hp he => exact ⟨he, fun hv => hp hv.symm⟩
  | application_node f a ihf iha =>
      rw [mem_free_variables_application, ihf, iha]
      constructor
      · intro h
        cases h with
        | inl h => exact FreeIn.appFunc h
        | inr h => exact FreeIn.appArg h
      · intro h
        cases h with
        | appFunc h => exact Or.inl h
        | appArg h => exact Or.inr h

end nightly_lambda

namespace nightly_lambda

open std_ext

/-- Substitution into a `lambda_node` whose parameter is the target. -/
theorem substitution_result_lambda_same (v : Ident) (e : Term) (s : subst) (h : v = s.prim) :
    substitution_result (.lambda_node v e) s = .lambda_node v e := by
  simp [substitution_result, h]

/-- Substitution into a `lambda_node` whose parameter is free in the replacement. -/
theorem substitution_result_lambda_shadow (v : Ident) (e : Term) (s : subst)
    (h : v ≠ s.prim) (hv : v ∈ free_variables s.sec) :
    substitution_result (.lambda_node v e) s
      = .lambda_node (.shadowed v) (substitution_result e s) := by
  have hc : type_list.contains (free_variables s.sec) v = true := (contains_iff _ _).mpr hv
  simp [substitution_result, h, hc]

/-- Substitution into a `lambda_node` whose parameter is not free in the replacement. -/
theorem substitution_result_lambda_keep (v : Ident) (e : Term) (s : subst)
    (h : v ≠ s.prim) (hv : v ∉ free_variables s.sec) :
    substitution_result (.lambda_node v e) s
      = .lambda_node v (substitution_result e s) := by
  have hc : type_list.contains (free_variables s.sec) v = false :=
    (contains_eq_false_iff _ _).mpr hv
  simp [substitution_result, h, hc]

/-- A free variable of a substitution result is a free variable of the term other
than the target, or a free variable of the replacement. -/
theorem free_variables_substitution_subset (t : Term) (s : subst) (w : Ident)
    (h : w ∈ free_variables (substitution_result t s)) :
    (w ∈ free_variables t ∧ w ≠ s.prim) ∨ w ∈ free_variables s.sec := by
  induction t with
  | var v =>
      by_cases hv : v = s.prim
      · simp only [substitution_result, hv, if_true] at h
        exact Or.inr h
      · simp only [substitution_result, hv, if_false, mem_free_variables_var] at h
        subst h
        exact Or.inl ⟨(mem_free_variables_var _ _).mpr rfl, hv⟩
  | lambda_node p e ih =>
      by_cases hp : p = s.prim
      · rw [substitution_result_lambda_same p e s hp] at h
        have h2 := (mem_free_variables_lambda _ _ _).mp h
        exact Or.inl ⟨h, fun hw => h2.2 (hw.trans hp.symm)⟩
      · by_cases hfv : p ∈ free_variables s.sec
        · rw [substitution_result_lambda_shadow p e s hp hfv] at h
          have h2 := (mem_free_variables_lambda _ _ _).mp h
          rcases ih h2.1 with h3 | h3
          · by_cases hwp : w = p
            · exact Or.inr (hwp ▸ hfv)
            · exact Or.inl ⟨(mem_free_variables_lambda _ _ _).mpr ⟨h3.1, hwp⟩, h3.2⟩
          · exact Or.inr h3
        · rw [substitution_result_lambda_keep p e s hp hfv] at h
          have h2 := (mem_free_variables_lambda _ _ _).mp h
          rcases ih h2.1 with h3 | h3
          · exact Or.inl ⟨(mem_free_variables_lambda _ _ _).mpr ⟨h3.1, h2.2⟩, h3.2⟩
          · exact Or.inr h3
  | application_node f a ihf iha =>
      simp only [substitution_result, mem_free_variables_application] at h
      rcases h with h | h
      · rcases ihf h with h3 | h3
        · exact Or.inl ⟨(mem_free_variables_application _ _ _).mpr (Or.inl h3.1), h3.2⟩
        · exact Or.inr h3
      · rcases iha h with h3 | h3
        · exact Or.inl ⟨(mem_free_variables_application _ _ _).mpr (Or.inr h3.1), h3.2⟩
        · exact Or.inr h3

/-- Substituting a closed replacement for an identifier that is not free in the
term returns the term. -/
theorem substitution_result_of_not_free (t : Term) (s : subst)
    (hs : free_variables s.sec = []) (h : s.prim ∉ free_variables t) :
    substitution_result t s = t := by
  induction t with
  | var v =>
      have hv : ¬ v = s.prim := fun hv => h ((mem_free_variables_var _ _).mpr hv.symm)
      simp [substitution_result, hv]
  | lambda_node p e ih =>
      by_cases hp : p = s.prim
      · exact substitution_result_lambda_same p e s hp
      · have hfv : p ∉ free_variables s.sec := by simp [hs]
        rw [substitution_result_lambda_keep p e s hp hfv, ih]
        intro he
        exact h ((mem_free_variables_lambda _ _ _).mpr ⟨he, fun hh => hp hh.symm⟩)
  | application_node f a ihf iha =>
      simp only [substitution_result]
      rw [ihf (fun hf => h ((mem_free_variables_application _ _ _).mpr (Or.inl hf))),
        iha (fun ha => h ((mem_free_variables_application _ _ _).mpr (Or.inr ha)))]

/-- The beta rule on a function part that is not a `lambda_node`. -/
theorem beta_reduction_of_not_lambda (f a : Term) (h : ∀ v e, f ≠ .lambda_node v e) :
    beta_reduction f a = (.application_node f a, false) := by
  cases f with
  | var v => rfl
  | lambda_node v e => exact absurd rfl (h v e)
  | application_node g b => rfl

/-- The eta rule does not fire when the parameter is not free in the body. -/
theorem eta_reduction_of_not_free (v : Ident) (e : Term) (h : v ∉ free_variables e) :
    eta_reduction v e = (.lambda_node v e, false) := by
  cases e with
  | var w => rfl
  | lambda_node w b => rfl
  | application_node f a =>
      have ha : ¬ Term.var v = a := by
        intro ha
        apply h
        rw [mem_free_variables_application, ← ha, mem_free_variables_var]
        exact Or.inr rfl
      simp [eta_reduction, ha]

/-- The eta rule fires on `f v` when `v` is not free in `f`. -/
theorem eta_reduction_fires (v : Ident) (f : Term) (h : v ∉ free_variables f) :
    eta_reduction v (.application_node f (.var v)) = (f, true) := by
  have hc : type_list.contains (free_variables f) v = false :=
    (contains_eq_false_iff _ _).mpr h
  simp [eta_reduction, hc]

/-- A free variable of the result of the eta rule is free in the abstraction. -/
theorem free_variables_eta_subset (v : Ident) (e : Term) (w : Ident)
    (h : w ∈ free_variables (eta_reduction v e).1) :
    w ∈ free_variables (.lambda_node v e) := by
  cases e with
  | var u => exact h
  | lambda_node u b => exact h
  | application_node f a =>
      by_cases hfire : (decide (Term.var v = a) && !type_list.contains (free_variables f) v) = true
      · simp only [eta_reduction, hfire, if_true] at h
        have hv : v ∉ free_variables f := by
          rw [Bool.and_eq_true, Bool.not_eq_true', contains_eq_false_iff] at hfire
          exact hfire.2
        rw [mem_free_variables_lambda, mem_free_variables_application]
        exact ⟨Or.inl h, fun hw => hv (hw ▸ h)⟩
      · simp only [eta_reduction, hfire] at h
        exact h

/-- A free variable of the result of the beta rule is free in the application. -/
theorem free_variables_beta_subset (f a : Term) (w : Ident)
    (h : w ∈ free_variables (beta_reduction f a).1) :
    w ∈ free_variables (.application_node f a) := by
  cases f with
  | var u => exact h
  | application_node g b => exact h
  | lambda_node v e =>
      simp only [beta_reduction] at h
      rw [mem_free_variables_application, mem_free_variables_lambda]
      rcases free_variables_substitution_subset e ⟨v, a⟩ w h with h3 | h3
      · exact Or.inl h3
      · exact Or.inr h3

/-- The reduction pass introduces no free variable. -/
theorem free_variables_pass_subset (t : Term) (w : Ident)
    (h : w ∈ free_variables (Full_reduction_impl t)) : w ∈ free_variables t := by
  induction t generalizing w with
  | var v => exact h
  | lambda_node v e ih =>
      simp only [Full_reduction_impl] at h
      have h2 := free_variables_eta_subset v _ w h
      rw [mem_free_variables_lambda] at h2 ⊢
      exact ⟨ih w h2.1, h2.2⟩
  | application_node f a ihf iha =>
      simp only [Full_reduction_impl] at h
      have h2 := free_variables_beta_subset _ _ w h
      rw [mem_free_variables_application] at h2 ⊢
      exact h2.imp (ihf w) (iha w)

/-- The pass of a closed term is closed. -/
theorem free_variables_pass_closed (t : Term) (h : free_variables t = []) :
    free_variables (Full_reduction_impl t) = [] := by
  apply List.eq_nil_iff_forall_not_mem.mpr
  intro w hw
  have := free_variables_pass_subset t w hw
  simp [h] at this

end nightly_lambda

namespace nightly_lambda

open std_ext

/-- An irreducible term is a fixpoint of the pass. -/
theorem pass_eq_of_irreducible (t : Term) (h : is_irreducible t = true) :
    Full_reduction_impl t = t := by
  have h2 : t = Full_reduction_impl t := of_decide_eq_true h
  exact h2.symm

/-- Full reduction stops at once on an irreducible term. -/
theorem full_reduction_of_irreducible (fuel : Nat) (t : Term) (h : is_irreducible t = true) :
    full_reduction (fuel + 1) t = some t := by
  simp [full_reduction, h]

/-- Full reduction of a reducible term continues with the result of the pass. -/
theorem full_reduction_of_reducible (fuel : Nat) (t : Term) (h : ¬ is_irreducible t = true) :
    full_reduction (fuel + 1) t = full_reduction fuel (Full_reduction_impl t) := by
  simp [full_reduction, h]

/-- What full reduction returns is irreducible. -/
theorem full_reduction_irreducible (fuel : Nat) (t r : Term)
    (h : full_reduction fuel t = some r) : is_irreducible r = true := by
  induction fuel generalizing t with
  | zero => simp [full_reduction] at h
  | succ n ih =>
      by_cases hi : is_irreducible t = true
      · rw [full_reduction_of_irreducible n t hi] at h
        cases h
        exact hi
      · rw [full_reduction_of_reducible n t hi] at h
        exact ih _ h

/-- More fuel does not change a result. -/
theorem full_reduction_succ (fuel : Nat) (t r : Term)
    (h : full_reduction fuel t = some r) : full_reduction (fuel + 1) t = some r := by
  induction fuel generalizing t with
  | zero => simp [full_reduction] at h
  | succ n ih =>
      by_cases hi : is_irreducible t = true
      · rw [full_reduction_of_irreducible n t hi] at h
        rw [full_reduction_of_irreducible (n + 1) t hi]
        exact h
      · rw [full_reduction_of_reducible n t hi] at h
        rw [full_reduction_of_reducible (n + 1) t hi]
        exact ih _ h

/-- Full reduction of an irreducible term can only return the term. -/
theorem full_reduction_eq_of_irreducible (fuel : Nat) (t r : Term)
    (hi : is_irreducible t = true) (h : full_reduction fuel t = some r) : r = t := by
  cases fuel with
  | zero => simp [full_reduction] at h
  | succ n =>
      rw [full_reduction_of_irreducible n t hi] at h
      cases h
      rfl

/-- When full reduction of a term returns, so does full reduction of its pass,
with the same fuel and result. -/
theorem full_reduction_pass (fuel : Nat) (t r : Term)
    (h : full_reduction fuel t = some r) :
    full_reduction fuel (Full_reduction_impl t) = some r := by
  cases fuel with
  | zero => simp [full_reduction] at h
  | succ n =>
      by_cases hi : is_irreducible t = true
      · rw [pass_eq_of_irreducible t hi]
        exact h
      · rw [full_reduction_of_reducible n t hi] at h
        exact full_reduction_succ n _ r h

/-- Two terms with the same pass, not both irreducible, have the same full
reduction. -/
theorem full_reduction_of_same_pass (fuel : Nat) (l n r : Term)
    (hpass : Full_reduction_impl l = Full_reduction_impl n)
    (hne : ¬ (is_irreducible l = true ∧ is_irreducible n = true))
    (h : full_reduction fuel n = some r) : full_reduction (fuel + 1) l = some r := by
  by_cases hl : is_irreducible l = true
  · have hn : ¬ is_irreducible n = true := fun hn => hne ⟨hl, hn⟩
    cases fuel with
    | zero => simp [full_reduction] at h
    | succ k =>
        rw [full_reduction_of_reducible k n hn, ← hpass, pass_eq_of_irreducible l hl] at h
        rw [full_reduction_eq_of_irreducible k l r hl h]
        exact full_reduction_of_irreducible _ l hl
  · rw [full_reduction_of_reducible fuel l hl, hpass]
    exact full_reduction_pass fuel n r h

/-- A term is not the function or argument part of itself. -/
theorem ne_application_self_arg (f n : Term) : Term.application_node f n ≠ n := by
  intro h
  have := congrArg sizeOf h
  simp at this

/-- A term is not the body of an abstraction around an application of itself. -/
theorem ne_lambda_application_self (v : Ident) (f a : Term) :
    Term.lambda_node v (.application_node f a) ≠ f := by
  intro h
  have := congrArg sizeOf h
  simp at this
  omega

/-- Free variables of the result of full reduction are free variables of the term. -/
theorem free_variables_full_reduction_subset (fuel : Nat) (t r : Term)
    (h : full_reduction fuel t = some r) (w : Ident) (hw : w ∈ free_variables r) :
    w ∈ free_variables t := by
  induction fuel generalizing t with
  | zero => simp [full_reduction] at h
  | succ n ih =>
      by_cases hi : is_irreducible t = true
      · rw [full_reduction_of_irreducible n t hi] at h
        cases h
        exact hw
      · rw [full_reduction_of_reducible n t hi] at h
        exact free_variables_pass_subset t w (ih _ h)

/-- Under a parameter that the pass cannot meet free, full reduction of an
abstraction over a closed body is the abstraction over the full reduction of
the body. -/
theorem full_reduction_lambda_closed (fuel : Nat) (y : Ident) (p : Term)
    (hp : free_variables p = []) :
    full_reduction fuel (.lambda_node y p) = (full_reduction fuel p).map (Term.lambda_node y) := by
  induction fuel generalizing p with
  | zero => simp [full_reduction]
  | succ n ih =>
      have hpc := free_variables_pass_closed p hp
      have hy : y ∉ free_variables (Full_reduction_impl p) := by simp [hpc]
      have hpass : Full_reduction_impl (.lambda_node y p)
          = .lambda_node y (Full_reduction_impl p) := by
        simp only [Full_reduction_impl, eta_reduction_of_not_free y _ hy]
      by_cases hi : is_irreducible p = true
      · have hi2 : is_irreducible (.lambda_node y p) = true := by
          simp only [is_irreducible, hpass, pass_eq_of_irreducible p hi, decide_True]
        rw [full_reduction_of_irreducible n _ hi2, full_reduction_of_irreducible n _ hi]
        rfl
      · have hi2 : ¬ is_irreducible (.lambda_node y p) = true := by
          intro hc
          have h3 := pass_eq_of_irreducible _ hc
          rw [hpass] at h3
          injection h3 with _ h4
          exact hi (by simp [is_irreducible, h4])
        rw [full_reduction_of_reducible n _ hi2, full_reduction_of_reducible n _ hi, hpass]
        exact ih _ hpc

end nightly_lambda

namespace nightly_lambda

open std_ext

/-- A term is not an application of an abstraction over itself. -/
theorem ne_application_lambda_self (v : Ident) (r b : Term) :
    Term.application_node (.lambda_node v r) b ≠ r := by
  intro h
  have := congrArg sizeOf h
  simp at this
  omega

/-- When the eta rule reports no effect it returns the abstraction. -/
theorem eta_reduction_of_no_effect (v : Ident) (e : Term)
    (h : (eta_reduction v e).2 = false) : (eta_reduction v e).1 = .lambda_node v e := by
  cases e with
  | var w => rfl
  | lambda_node w b => rfl
  | application_node f a =>
      simp only [eta_reduction] at h
      simp only [eta_reduction, h]
      rfl

/-- When the beta rule reports no effect it returns the application. -/
theorem beta_reduction_of_no_effect (f a : Term)
    (h : (beta_reduction f a).2 = false) :
    (beta_reduction f a).1 = .application_node f a ∧ ∀ v e, f ≠ .lambda_node v e := by
  cases f with
  | var w => exact ⟨rfl, fun v e hc => by cases hc⟩
  | lambda_node w b => simp [beta_reduction] at h
  | application_node g b => exact ⟨rfl, fun v e hc => by cases hc⟩

end nightly_lambda

namespace nightly_lambda

open std_ext

/-- A term on which the reduction pass fires no rule is a fixpoint of the pass,
is returned by full normalization as it is, and contains no redex. -/
theorem no_redex_of_pass_without_effect (t : Term) (h : pass_has_effect t = false) :
    Full_reduction_impl t = t ∧ evaluate 1 t = some t ∧ ¬ HasRedex t := by
  have key : Full_reduction_impl t = t ∧ ¬ HasRedex t := by
    induction t with
    | var v => exact ⟨rfl, fun hc => by cases hc⟩
    | lambda_node v e ih =>
        simp only [pass_has_effect, Bool.or_eq_false_iff] at h
        obtain ⟨ihp, ihn⟩ := ih h.1
        have h2 := h.2
        rw [ihp] at h2
        refine ⟨?_, ?_⟩
        · simp only [Full_reduction_impl, ihp]
          exact eta_reduction_of_no_effect v e h2
        · intro hc
          cases hc with
          | eta _ f hf =>
              have hv : v ∉ free_variables f :=
                fun hm => hf ((mem_free_variables_iff_FreeIn f v).mp hm)
              rw [eta_reduction_fires v f hv] at h2
              cases h2
          | inLambda he => exact ihn he
    | application_node f a ihf iha =>
        simp only [pass_has_effect, Bool.or_eq_false_iff] at h
        obtain ⟨hfp, hfn⟩ := ihf h.1.1
        obtain ⟨hap, han⟩ := iha h.1.2
        have h2 := h.2
        rw [hfp, hap] at h2
        obtain ⟨hb, hnl⟩ := beta_reduction_of_no_effect f a h2
        refine ⟨?_, ?_⟩
        · simp only [Full_reduction_impl, hfp, hap]
          exact hb
        · intro hc
          cases hc with
          | beta v e _ => exact hnl v e rfl
          | inFunc hf => exact hfn hf
          | inArg ha => exact han ha
  refine ⟨key.1, ?_, key.2⟩
  exact full_reduction_of_irreducible 0 t (by simp [is_irreducible, key.1])

/-- A pass on which the beta rule does not fire does not grow the term, and it
keeps the number of nodes only when the eta rule does not fire either. -/
theorem node_count_pass_le (t : Term) (h : pass_beta_effect t = false) :
    node_count (Full_reduction_impl t) ≤ node_count t
    ∧ (node_count (Full_reduction_impl t) = node_count t → pass_has_effect t = false) := by
  induction t with
  | var v => exact ⟨Nat.le_refl _, fun _ => rfl⟩
  | lambda_node v e ih =>
      simp only [pass_beta_effect] at h
      obtain ⟨hle, heq⟩ := ih h
      by_cases hfire : (eta_reduction v (Full_reduction_impl e)).2 = true
      · have hlt : node_count (eta_reduction v (Full_reduction_impl e)).1
            < node_count (Full_reduction_impl e) := by
          cases hp : Full_reduction_impl e with
          | var w => rw [hp] at hfire; simp [eta_reduction] at hfire
          | lambda_node w b => rw [hp] at hfire; simp [eta_reduction] at hfire
          | application_node f a =>
              rw [hp] at hfire
              simp only [eta_reduction] at hfire
              simp only [eta_reduction, hfire, if_true, node_count]
              omega
        simp only [Full_reduction_impl, node_count]
        exact ⟨by omega, fun hc => by omega⟩
      · have hno : (eta_reduction v (Full_reduction_impl e)).2 = false := by
          simpa using hfire
        simp only [Full_reduction_impl, eta_reduction_of_no_effect v _ hno, node_count,
          pass_has_effect, hno, Bool.or_false]
        exact ⟨by omega, fun hc => heq (by omega)⟩
  | application_node f a ihf iha =>
      simp only [pass_beta_effect, Bool.or_eq_false_iff] at h
      obtain ⟨hlef, heqf⟩ := ihf h.1.1
      obtain ⟨hlea, heqa⟩ := iha h.1.2
      obtain ⟨hb, _⟩ := beta_reduction_of_no_effect _ _ h.2
      simp only [Full_reduction_impl, hb, node_count, pass_has_effect, h.2, Bool.or_false,
        Bool.or_eq_false_iff]
      exact ⟨by omega, fun hc => ⟨heqf (by omega), heqa (by omega)⟩⟩

end nightly_lambda

/-! ## Facts about duplicate removal and removal by position -/

namespace std_ext

/-- The result of `_Remove_duplicates` has no duplicates. -/
theorem Remove_duplicates_nodup {α : Type} [DecidableEq α] (l : List α) :
    (Remove_duplicates l).Nodup := by
  have key : ∀ (n : Nat) (l : List α), l.length ≤ n → (Remove_duplicates l).Nodup := by
    intro n
    induction n with
    | zero =>
        intro l h
        have hl : l = [] := List.length_eq_zero.mp (Nat.le_zero.mp h)
        subst hl
        simp [Remove_duplicates, Remove_duplicates_impl]
    | succ n ih =>
        intro l h
        cases l with
        | nil => simp [Remove_duplicates, Remove_duplicates_impl]
        | cons x xs =>
            have hlen : (type_list.remove_completely xs x).length ≤ n := by
              rw [remove_completely_eq_filter]
              exact le_trans (List.length_filter_le _ _) (Nat.le_of_succ_le_succ h)
            rw [Remove_duplicates_cons, List.nodup_cons]
            refine ⟨?_, ih _ hlen⟩
            intro hx
            have h2 := (mem_remove_duplicates _ x).mp hx
            exact ((mem_remove_completely xs x x).mp h2).2 rfl
  exact key l.length l (Nat.le_refl _)

/-- On a list without duplicates `_Remove_duplicates` changes nothing. -/
theorem Remove_duplicates_of_nodup {α : Type} [DecidableEq α] (l : List α) (h : l.Nodup) :
    Remove_duplicates l = l := by
  induction l with
  | nil => rfl
  | cons x xs ih =>
      have hx := (List.nodup_cons.mp h).1
      have hfilter : xs.filter (fun y => !decide (y = x)) = xs := by
        apply List.filter_eq_self.mpr
        intro y hy
        have hne : ¬ y = x := fun hyx => hx (hyx ▸ hy)
        simp [hne]
      rw [Remove_duplicates_cons, remove_completely_eq_filter, hfilter,
        ih (List.nodup_cons.mp h).2]

/-- The reference walk that has already seen `seen` is `_Remove_duplicates` of
the values not yet seen. -/
theorem keep_first_occurrences_eq {α : Type} [DecidableEq α] (seen l : List α) :
    keep_first_occurrences seen l
      = Remove_duplicates (l.filter (fun y => !decide (y ∈ seen))) := by
  induction l generalizing seen with
  | nil => rfl
  | cons x xs ih =>
      by_cases hx : x ∈ seen
      · simp [keep_first_occurrences, hx, ih]
      · have hfilter : (xs.filter (fun y => !decide (y ∈ seen))).filter
            (fun y => !decide (y = x))
            = xs.filter (fun y => !decide (y ∈ x :: seen)) := by
          rw [List.filter_filter]
          apply List.filter_congr
          intro y _
          simp [not_or]
        simp only [keep_first_occurrences, hx, if_false, List.filter_cons, decide_False,
          Bool.not_false, if_true, Remove_duplicates_cons, remove_completely_eq_filter,
          hfilter, ih]

end std_ext

namespace std_ext

/-- Cutting a range out of a longer range that starts at or before the start. -/
theorem Make_integer_range_impl_range' (a : Nat) (m k : Nat) (h : k ≤ a) :
    Make_integer_range_impl a (List.range' k m) = List.range' a (k + m - a) := by
  induction m generalizing k with
  | zero =>
      have h0 : k - a = 0 := by omega
      simp [Make_integer_range_impl, h0]
  | succ m ih =>
      rw [List.range'_succ]
      by_cases hk : k = a
      · subst hk
        have h1 : k + (m + 1) - k = m + 1 := by omega
        simp [Make_integer_range_impl, h1, List.range'_succ]
      · have h1 : k + 1 + m - a = k + (m + 1) - a := by omega
        simp only [Make_integer_range_impl, hk, if_false]
        rw [ih (k + 1) (by omega), h1]

/-- The alias `make_integer_range` is the range `[start, end)`. -/
theorem make_integer_range_eq (a b : Nat) :
    make_integer_range a b = List.range' a (b - a) := by
  rw [make_integer_range, make_integer_sequence, List.range_eq_range',
    Make_integer_range_impl_range' a b 0 (Nat.zero_le _), Nat.zero_add]

/-- Filtering the positions outside `b :: l` from a range that starts at or
before `b`, when no member of `l` is below `b`: the part below `b` is kept whole
and `b` is dropped. -/
theorem filter_not_mem_range' (lo b n : Nat) (l : List Nat) (hlo : lo ≤ b) (hbn : b ≤ n)
    (hl : ∀ j ∈ l, b ≤ j) :
    (List.range' lo (n - lo)).filter (fun j => !decide (j ∈ b :: l))
      = List.range' lo (b - lo)
        ++ (List.range' (b + 1) (n - (b + 1))).filter (fun j => !decide (j ∈ l)) := by
  have hsplit : List.range' lo (n - lo)
      = List.range' lo (b - lo) ++ List.range' b (n - b) := by
    have h1 := List.range'_append_1 lo (b - lo) (n - b)
    have h2 : lo + (b - lo) = b := by omega
    have h3 : n - b + (b - lo) = n - lo := by omega
    rw [h2, h3] at h1
    exact h1.symm
  have hfirst : (List.range' lo (b - lo)).filter (fun j => !decide (j ∈ b :: l))
      = List.range' lo (b - lo) := by
    apply List.filter_eq_self.mpr
    intro j hj
    have hj2 := List.mem_range'_1.mp hj
    have hjb : j < b := by omega
    have hnot : j ∉ b :: l := by
      intro hmem
      rcases List.mem_cons.mp hmem with h | h
      · omega
      · have := hl j h
        omega
    simp [hnot]
  have hsecond : (List.range' b (n - b)).filter (fun j => !decide (j ∈ b :: l))
      = (List.range' (b + 1) (n - (b + 1))).filter (fun j => !decide (j ∈ l)) := by
    by_cases hb : b = n
    · subst hb
      simp
    · have h4 : n - b = (n - (b + 1)) + 1 := by omega
      rw [h4, List.range'_succ, List.filter_cons]
      have hb0 : (!decide (b ∈ b :: l)) = false := by simp
      rw [hb0]
      simp only [Bool.false_eq_true, if_false]
      apply List.filter_congr
      intro j hj
      have hj2 := List.mem_range'_1.mp hj
      have hne : ¬ j = b := by omega
      simp [hne]
  rw [hsplit, List.filter_append, hfirst, hsecond]

/-- On an ascending sequence `a, l..., n` the struct `_Invert_integer_sequence_impl`
appends the integers strictly between `a` and `n` that are not in `l`. -/
theorem Invert_integer_sequence_impl_sorted (l : List Nat) (a n : Nat) (res : List Nat)
    (h : List.Sorted (· ≤ ·) (a :: (l ++ [n]))) :
    Invert_integer_sequence_impl res (a :: (l ++ [n]))
      = res ++ (List.range' (a + 1) (n - (a + 1))).filter (fun j => !decide (j ∈ l)) := by
  induction l generalizing a res with
  | nil =>
      by_cases ha : a + 1 = n
      · have h0 : n - (a + 1) = 0 := by omega
        simp [Invert_integer_sequence_impl, ha]
      · simp [Invert_integer_sequence_impl, ha, concat_integer_sequences,
          make_integer_range_eq]
  | cons b l ih =>
      have hab : a ≤ b := by
        have := List.rel_of_sorted_cons h b (by simp)
        exact this
      have htail : List.Sorted (· ≤ ·) (b :: (l ++ [n])) := List.Sorted.of_cons h
      have hbn : b ≤ n := List.rel_of_sorted_cons htail n (by simp)
      have hl : ∀ j ∈ l, b ≤ j := fun j hj => List.rel_of_sorted_cons htail j (by simp [hj])
      have hres : (if a + 1 = b then res
            else concat_integer_sequences res (make_integer_range (a + 1) b))
          = res ++ List.range' (a + 1) (b - (a + 1)) := by
        by_cases hc : a + 1 = b
        · have h0 : b - (a + 1) = 0 := by omega
          simp [hc]
        · simp [hc, concat_integer_sequences, make_integer_range_eq]
      have hstep : Invert_integer_sequence_impl res (a :: (b :: l ++ [n]))
          = Invert_integer_sequence_impl (res ++ List.range' (a + 1) (b - (a + 1)))
              (b :: (l ++ [n])) := by
        rw [← hres]
        rfl
      rw [hstep, ih b _ htail, List.append_assoc]
      congr 1
      by_cases hlt : a + 1 ≤ b
      · exact (filter_not_mem_range' (a + 1) b n l hlt hbn hl).symm
      · have hba : b = a := by omega
        subst hba
        have h0 : b - (b + 1) = 0 := by omega
        rw [h0]
        simp only [List.range'_zero, List.nil_append]
        apply List.filter_congr
        intro j hj
        have hj2 := List.mem_range'_1.mp hj
        have hne : ¬ j = b := by omega
        simp [hne]

/-- On ascending indices below the size `invert_index_sequence` answers the
positions that are not among the indices, in ascending order. -/
theorem invert_index_sequence_sorted (i : Nat) (rest : List Nat) (size : Nat)
    (hsorted : List.Sorted (· ≤ ·) (i :: rest))
    (hvalid : ∀ j ∈ i :: rest, j < size) :
    invert_index_sequence (i :: rest ++ [size])
      = some ((List.range size).filter (fun j => !decide (j ∈ i :: rest))) := by
  have hall : List.Sorted (· ≤ ·) (i :: (rest ++ [size])) := by
    have h1 : List.Sorted (· ≤ ·) ((i :: rest) ++ [size]) := by
      apply List.pairwise_append.mpr
      refine ⟨hsorted, List.pairwise_singleton _ _, ?_⟩
      intro a ha b hb
      have hb2 : b = size := by simpa using hb
      have := hvalid a ha
      omega
    simpa using h1
  have hres : (if i = 0 then [] else make_integer_sequence i) = List.range' 0 (i - 0) := by
    by_cases h0 : i = 0
    · simp [h0]
    · simp [h0, make_integer_sequence, List.range_eq_range']
  have hi : i ≤ size := Nat.le_of_lt (hvalid i (by simp))
  have hl : ∀ j ∈ rest, i ≤ j := fun j hj => List.rel_of_sorted_cons hsorted j hj
  have hfilter := filter_not_mem_range' 0 i size rest (Nat.zero_le _) hi hl
  simp only [invert_index_sequence, Invert_integer_sequence, List.cons_append]
  rw [Invert_integer_sequence_impl_sorted rest i size _ hall, hres, List.range_eq_range',
    ← hfilter]
  simp

/-- Extraction of the positions of a list that a predicate on shifted positions
keeps is the reference walk from that shift. -/
theorem tuple_elements_remove_positions {α : Type} (indices : List Nat) (l : List α)
    (k : Nat) :
    type_list.tuple_elements l
        ((List.range l.length).filter (fun j => !decide (j + k ∈ indices)))
      = some (remove_positions_from indices k l) := by
  induction l generalizing k with
  | nil => rfl
  | cons x l ih =>
      have hshift : (fun j => !decide (j + k ∈ indices)) ∘ Nat.succ
          = fun j => !decide (j + (k + 1) ∈ indices) := by
        funext j
        have : j.succ + k = j + (k + 1) := by omega
        simp [this]
      rw [List.length_cons, List.range_succ_eq_map, List.filter_cons, List.filter_map, hshift]
      by_cases hk : k ∈ indices
      · simp [hk, remove_positions_from, tuple_elements_cons_succ, ih]
      · simp [hk, remove_positions_from, tuple_elements_cons_succ, ih,
          type_list.tuple_elements, type_list.get]

/-- Without indices the reference walk keeps the whole sequence. -/
theorem remove_positions_from_nil {α : Type} (l : List α) (k : Nat) :
    remove_positions_from [] k l = l := by
  induction l generalizing k with
  | nil => rfl
  | cons x l ih => simp [remove_positions_from, ih]

end std_ext

/-! ## Facts about renaming -/

namespace nightly_lambda

open std_ext

/-- Renaming a `lambda_node` whose parameter is the old name. -/
theorem alpha_relation_lambda_same (v : Ident) (e : Term) (newName : Ident) :
    alpha_relation (.lambda_node v e) v newName
      = (.lambda_node newName (substitution_result e ⟨v, .var newName⟩), true) := by
  simp [alpha_relation]

/-- Renaming a `lambda_node` whose parameter is not the old name. -/
theorem alpha_relation_lambda_other (v : Ident) (e : Term) (oldName newName : Ident)
    (h : oldName ≠ v) :
    alpha_relation (.lambda_node v e) oldName newName
      = (.lambda_node v (alpha_relation e oldName newName).1,
          (alpha_relation e oldName newName).2) := by
  simp [alpha_relation, h]

/-- Renaming an `application_node` when renaming has an effect in the function
part. -/
theorem alpha_relation_application_func (f a : Term) (oldName newName : Ident)
    (h : (alpha_relation f oldName newName).2 = true) :
    alpha_relation (.application_node f a) oldName newName
      = (.application_node (alpha_relation f oldName newName).1 a, true) := by
  simp [alpha_relation, h]

/-- Renaming an `application_node` when renaming has an effect in the argument
part only. -/
theorem alpha_relation_application_arg (f a : Term) (oldName newName : Ident)
    (h1 : (alpha_relation f oldName newName).2 = false)
    (h2 : (alpha_relation a oldName newName).2 = true) :
    alpha_relation (.application_node f a) oldName newName
      = (.application_node f (alpha_relation a oldName newName).1, true) := by
  simp [alpha_relation, h1, h2]

/-- Renaming an `application_node` when renaming has no effect in either part. -/
theorem alpha_relation_application_none (f a : Term) (oldName newName : Ident)
    (h1 : (alpha_relation f oldName newName).2 = false)
    (h2 : (alpha_relation a oldName newName).2 = false) :
    alpha_relation (.application_node f a) oldName newName
      = (.application_node f a, false) := by
  simp [alpha_relation, h1, h2]

/-- A free variable of the term, other than the target and other than the shadow
of a free variable of the replacement, stays free under substitution. -/
theorem free_variables_substitution_keeps (t : Term) (s : subst) (w : Ident)
    (hw : w ∈ free_variables t) (hne : w ≠ s.prim)
    (hsh : ∀ p ∈ free_variables s.sec, w ≠ Ident.shadowed p) :
    w ∈ free_variables (substitution_result t s) := by
  induction t with
  | var v =>
      have hv : w = v := (mem_free_variables_var _ _).mp hw
      have hvp : ¬ v = s.prim := fun h => hne (hv.trans h)
      simpa [substitution_result, hvp] using hw
  | lambda_node p e ih =>
      have h2 := (mem_free_variables_lambda _ _ _).mp hw
      by_cases hp : p = s.prim
      · rw [substitution_result_lambda_same p e s hp]
        exact hw
      · by_cases hfv : p ∈ free_variables s.sec
        · rw [substitution_result_lambda_shadow p e s hp hfv, mem_free_variables_lambda]
          exact ⟨ih h2.1, hsh p hfv⟩
        · rw [substitution_result_lambda_keep p e s hp hfv, mem_free_variables_lambda]
          exact ⟨ih h2.1, h2.2⟩
  | application_node f a ihf iha =>
      simp only [substitution_result, mem_free_variables_application]
      exact ((mem_free_variables_application _ _ _).mp hw).imp ihf iha

/-- Renaming frees no variable: a free variable of the renamed term is a free
variable of the term. -/
theorem free_variables_alpha_subset (t : Term) (oldName newName w : Ident)
    (h : w ∈ free_variables (alpha_relation t oldName newName).1) :
    w ∈ free_variables t := by
  induction t with
  | var v => exact h
  | lambda_node v e ih =>
      by_cases hv : oldName = v
      · subst hv
        rw [alpha_relation_lambda_same, mem_free_variables_lambda] at h
        rw [mem_free_variables_lambda]
        rcases free_variables_substitution_subset e ⟨oldName, .var newName⟩ w h.1 with h3 | h3
        · exact h3
        · exact absurd ((mem_free_variables_var _ _).mp h3) h.2
      · rw [alpha_relation_lambda_other v e oldName newName hv, mem_free_variables_lambda] at h
        rw [mem_free_variables_lambda]
        exact ⟨ih h.1, h.2⟩
  | application_node f a ihf iha =>
      rw [mem_free_variables_application]
      cases h1 : (alpha_relation f oldName newName).2 with
      | true =>
          rw [alpha_relation_application_func f a _ _ h1, mem_free_variables_application] at h
          exact h.imp_left ihf
      | false =>
          cases h2 : (alpha_relation a oldName newName).2 with
          | true =>
              rw [alpha_relation_application_arg f a _ _ h1 h2,
                mem_free_variables_application] at h
              exact h.imp_right iha
          | false =>
              rw [alpha_relation_application_none f a _ _ h1 h2,
                mem_free_variables_application] at h
              exact h

/-- Renaming captures no free variable other than the new name and its shadow. -/
theorem free_variables_alpha_superset (t : Term) (oldName newName w : Ident)
    (hw : w ∈ free_variables t) (hnew : w ≠ newName) (hsh : w ≠ Ident.shadowed newName) :
    w ∈ free_variables (alpha_relation t oldName newName).1 := by
  induction t with
  | var v => exact hw
  | lambda_node v e ih =>
      have h2 := (mem_free_variables_lambda _ _ _).mp hw
      by_cases hv : oldName = v
      · subst hv
        rw [alpha_relation_lambda_same, mem_free_variables_lambda]
        refine ⟨free_variables_substitution_keeps e ⟨oldName, .var newName⟩ w h2.1 h2.2 ?_, hnew⟩
        intro p hp
        have hpn : p = newName := (mem_free_variables_var _ _).mp hp
        rw [hpn]
        exact hsh
      · rw [alpha_relation_lambda_other v e oldName newName hv, mem_free_variables_lambda]
        exact ⟨ih h2.1, h2.2⟩
  | application_node f a ihf iha =>
      have h0 := (mem_free_variables_application _ _ _).mp hw
      cases h1 : (alpha_relation f oldName newName).2 with
      | true =>
          rw [alpha_relation_application_func f a _ _ h1, mem_free_variables_application]
          exact h0.imp_left ihf
      | false =>
          cases h2 : (alpha_relation a oldName newName).2 with
          | true =>
              rw [alpha_relation_application_arg f a _ _ h1 h2,
                mem_free_variables_application]
              exact h0.imp_right iha
          | false =>
              rw [alpha_relation_application_none f a _ _ h1 h2,
                mem_free_variables_application]
              exact h0

end nightly_lambda

/-! ## Facts about binders, leaves and normal forms -/

namespace std_ext

/-- On two lists without duplicates, `_Remove_duplicates` of the concatenation
keeps the first list and then the values of the second that are not in the
first. -/
theorem Remove_duplicates_append {α : Type} [DecidableEq α] (l1 l2 : List α)
    (h1 : l1.Nodup) (h2 : l2.Nodup) :
    Remove_duplicates (l1 ++ l2) = l1 ++ l2.filter (fun y => !decide (y ∈ l1)) := by
  induction l1 generalizing l2 with
  | nil =>
      simp only [List.nil_append, List.not_mem_nil, decide_False, Bool.not_false,
        List.filter_true]
      exact Remove_duplicates_of_nodup l2 h2
  | cons x xs ih =>
      have hx := (List.nodup_cons.mp h1).1
      have hxs := (List.nodup_cons.mp h1).2
      have hfilter : xs.filter (fun y => !decide (y = x)) = xs := by
        apply List.filter_eq_self.mpr
        intro y hy
        have hne : ¬ y = x := fun hyx => hx (hyx ▸ hy)
        simp [hne]
      have hcomb : (l2.filter (fun y => !decide (y = x))).filter (fun y => !decide (y ∈ xs))
          = l2.filter (fun y => !decide (y ∈ x :: xs)) := by
        rw [List.filter_filter]
        apply List.filter_congr
        intro y _
        simp [not_or, Bool.and_comm]
      rw [List.cons_append, Remove_duplicates_cons, remove_completely_eq_filter,
        List.filter_append, hfilter, ih _ hxs (h2.filter _), hcomb, List.cons_append]

end std_ext

namespace nightly_lambda

open std_ext

/-- The list of free variables has no duplicates. -/
theorem free_variables_no_duplicates (t : Term) : (free_variables t).Nodup := by
  induction t with
  | var v => simp [free_variables]
  | lambda_node v e ih =>
      simp only [free_variables, remove_completely_eq_filter]
      exact ih.filter _
  | application_node f a _ _ =>
      simp only [free_variables, type_list.remove_duplicates]
      exact Remove_duplicates_nodup _

/-- Substituting a variable that is the parameter of no Abstraction of the term
changes no parameter. -/
theorem binders_substitution_variable (e : Term) (oldName newName : Ident)
    (h : newName ∉ binders e) :
    binders (substitution_result e ⟨oldName, .var newName⟩) = binders e := by
  induction e with
  | var v =>
      by_cases hv : v = oldName
      · simp [substitution_result, hv, binders]
      · simp [substitution_result, hv, binders]
  | lambda_node p b ih =>
      have hp : p ≠ newName := fun hc => h (by simp [binders, hc])
      have hb : newName ∉ binders b := fun hc => h (by simp [binders, hc])
      by_cases hpo : p = oldName
      · rw [substitution_result_lambda_same p b ⟨oldName, .var newName⟩ hpo]
      · have hfv : p ∉ free_variables (subst.mk oldName (.var newName)).sec := by
          simp [free_variables, hp]
        rw [substitution_result_lambda_keep p b ⟨oldName, .var newName⟩ hpo hfv]
        simp only [binders, ih hb]
  | application_node f a ihf iha =>
      have hf : newName ∉ binders f := fun hc => h (by simp [binders, hc])
      have ha : newName ∉ binders a := fun hc => h (by simp [binders, hc])
      simp only [substitution_result, binders, ihf hf, iha ha]

/-- Renaming has an effect exactly when the old name is the parameter of an
Abstraction of the term. -/
theorem alpha_relation_has_effect_iff (t : Term) (oldName newName : Ident) :
    (alpha_relation t oldName newName).2 = true ↔ oldName ∈ binders t := by
  induction t with
  | var v => simp [alpha_relation, binders]
  | lambda_node v e ih =>
      by_cases hv : oldName = v
      · simp [alpha_relation, binders, hv]
      · simp [alpha_relation, binders, hv, ih]
  | application_node f a ihf iha =>
      simp [alpha_relation, binders, ihf, iha]

/-- Renaming to a name that is the parameter of no Abstraction of the term, when
it has an effect, replaces one parameter `oldName` by `newName`, the first one
that a depth-first walk enters, and keeps every other parameter. -/
theorem binders_alpha_relation (t : Term) (oldName newName : Ident)
    (hfresh : newName ∉ binders t)
    (hchanged : (alpha_relation t oldName newName).2 = true) :
    ∃ l1 l2, oldName ∉ l1 ∧ binders t = l1 ++ oldName :: l2
      ∧ binders (alpha_relation t oldName newName).1 = l1 ++ newName :: l2 := by
  induction t with
  | var v => simp [alpha_relation] at hchanged
  | lambda_node v e ih =>
      have he : newName ∉ binders e := fun hc => hfresh (by simp [binders, hc])
      by_cases hv : oldName = v
      · subst hv
        refine ⟨[], binders e, by simp, by simp [binders], ?_⟩
        rw [alpha_relation_lambda_same]
        simp [binders, binders_substitution_variable e oldName newName he]
      · rw [alpha_relation_lambda_other v e oldName newName hv] at hchanged ⊢
        obtain ⟨l1, l2, h0, h1, h2⟩ := ih he hchanged
        refine ⟨v :: l1, l2, ?_, by simp [binders, h1], by simp [binders, h2]⟩
        intro hc
        rcases List.mem_cons.mp hc with h | h
        · exact hv h
        · exact h0 h
  | application_node f a ihf iha =>
      have hf : newName ∉ binders f := fun hc => hfresh (by simp [binders, hc])
      have ha : newName ∉ binders a := fun hc => hfresh (by simp [binders, hc])
      cases h1 : (alpha_relation f oldName newName).2 with
      | true =>
          obtain ⟨l1, l2, h0, h3, h4⟩ := ihf hf h1
          rw [alpha_relation_application_func f a _ _ h1]
          exact ⟨l1, l2 ++ binders a, h0, by simp [binders, h3], by simp [binders, h4]⟩
      | false =>
          cases h2 : (alpha_relation a oldName newName).2 with
          | true =>
              obtain ⟨l1, l2, h0, h3, h4⟩ := iha ha h2
              have hnf : oldName ∉ binders f := by
                intro hc
                have := (alpha_relation_has_effect_iff f oldName newName).mpr hc
                rw [h1] at this
                cases this
              rw [alpha_relation_application_arg f a _ _ h1 h2]
              refine ⟨binders f ++ l1, l2, ?_, by simp [binders, h3], by simp [binders, h4]⟩
              intro hc
              rcases List.mem_append.mp hc with h | h
              · exact hnf h
              · exact h0 h
          | false =>
              rw [alpha_relation_application_none f a _ _ h1 h2] at hchanged
              cases hchanged

/-- A Variable leaf of a substitution result is a leaf of the term or of the
replacement. -/
theorem variable_leaves_substitution (t : Term) (s : subst) (w : Ident)
    (h : w ∈ variable_leaves (substitution_result t s)) :
    w ∈ variable_leaves t ∨ w ∈ variable_leaves s.sec := by
  induction t with
  | var v =>
      by_cases hv : v = s.prim
      · simp only [substitution_result, hv, if_true] at h
        exact Or.inr h
      · simp only [substitution_result, hv, if_false] at h
        exact Or.inl h
  | lambda_node p e ih =>
      by_cases hp : p = s.prim
      · rw [substitution_result_lambda_same p e s hp] at h
        exact Or.inl h
      · by_cases hfv : p ∈ free_variables s.sec
        · rw [substitution_result_lambda_shadow p e s hp hfv] at h
          exact ih h
        · rw [substitution_result_lambda_keep p e s hp hfv] at h
          exact ih h
  | application_node f a ihf iha =>
      simp only [substitution_result, variable_leaves, List.mem_append] at h ⊢
      rcases h with h | h
      · exact (ihf h).imp_left Or.inl
      · exact (iha h).imp_left Or.inr

/-- On a term without a redex the reduction pass changes nothing. -/
theorem pass_eq_of_no_redex (t : Term) (h : ¬ HasRedex t) : Full_reduction_impl t = t := by
  induction t with
  | var v => rfl
  | lambda_node v e ih =>
      have he : ¬ HasRedex e := fun hc => h (HasRedex.inLambda hc)
      simp only [Full_reduction_impl, ih he]
      cases hfire : (eta_reduction v e).2 with
      | false => exact eta_reduction_of_no_effect v e hfire
      | true =>
          exfalso
          cases e with
          | var w => simp [eta_reduction] at hfire
          | lambda_node w b => simp [eta_reduction] at hfire
          | application_node f a =>
              simp only [eta_reduction, Bool.and_eq_true, decide_eq_true_eq,
                Bool.not_eq_true', contains_eq_false_iff] at hfire
              apply h
              rw [← hfire.1]
              exact HasRedex.eta v f
                (fun hfree => hfire.2 ((mem_free_variables_iff_FreeIn f v).mpr hfree))
  | application_node f a ihf iha =>
      have hf : ¬ HasRedex f := fun hc => h (HasRedex.inFunc hc)
      have ha : ¬ HasRedex a := fun hc => h (HasRedex.inArg hc)
      simp only [Full_reduction_impl, ihf hf, iha ha]
      have hnl : ∀ v e, f ≠ .lambda_node v e := by
        intro v e hc
        apply h
        rw [hc]
        exact HasRedex.beta v e a
      rw [beta_reduction_of_not_lambda f a hnl]

end nightly_lambda

/-! ## Facts about the receiver of a member function -/

namespace nightly_lambda

open std_ext

/-- For an object that is not a shadow variable the `self` of `_Node_base` is the
class of the object. -/
theorem Node_base_self_of_not_shadow (t : Term) (h : ∀ v, t ≠ .var (.shadowed v)) :
    Node_base.self t = t := by
  cases t with
  | var v =>
      cases v with
      | variable_node n => rfl
      | shadowed u => exact absurd rfl (h u)
  | lambda_node v e => rfl
  | application_node f a => rfl

/-- With no name the primary template of `_Unshadow` is selected for every
expression. -/
theorem Unshadow_nil (t : Term) : Unshadow t [] = some ⟨false, t, .type_list []⟩ := by
  cases t with
  | var v => rfl
  | application_node f a => rfl
  | lambda_node v e => cases v <;> rfl

/-- The struct `_Unshadow` is well-formed on every expression that is not an
`application_node`, for every name list. -/
theorem Unshadow_of_not_application (t : Term) (names : List Ident)
    (h : ∀ f a, t ≠ .application_node f a) : ∃ u, Unshadow t names = some u := by
  cases t with
  | var v => cases names <;> exact ⟨_, rfl⟩
  | application_node f a => exact absurd rfl (h f a)
  | lambda_node v e => cases v <;> cases names <;> exact ⟨_, rfl⟩

end nightly_lambda

/-! ## The claims -/

namespace nightly_lambda

open std_ext

/-- C1 (idempotence of evaluate). Whenever full normalization of a term `t`
terminates with a result `r`, full normalization of `r` terminates too, within
the same fuel, and its result is structurally equal (`symb_eq`) to `r`:
`evaluate(evaluate(t)) == evaluate(t)`. -/
theorem evaluate_idempotent (fuel : Nat) (t r : Term) (h : evaluate fuel t = some r) :
    ∃ r2, evaluate fuel r = some r2 ∧ symb_eq r2 r = true := by
  have hi : is_irreducible r = true := full_reduction_irreducible fuel t r h
  cases fuel with
  | zero => simp [evaluate, full_reduction] at h
  | succ n =>
      exact ⟨r, full_reduction_of_irreducible n r hi, by simp [symb_eq]⟩

/-- Witness of C1 at `(lambda x. x x) ((lambda y. y) z)`, which evaluates to
`z z` in two rounds. -/
theorem evaluate_idempotent_witness :
    evaluate 3
        (.application_node
          (.lambda_node names.x
            (.application_node (.var names.x) (.var names.x)))
          (.application_node
            (.lambda_node names.y (.var names.y))
            (.var names.z)))
      = some (.application_node (.var names.z) (.var names.z))
    ∧ ∃ r2,
        evaluate 3 (.application_node (.var names.z) (.var names.z))
          = some r2
        ∧ symb_eq r2 (.application_node (.var names.z) (.var names.z))
          = true :=
  ⟨by decide,
    evaluate_idempotent 3
      (.application_node
        (.lambda_node names.x (.application_node (.var names.x) (.var names.x)))
        (.application_node (.lambda_node names.y (.var names.y)) (.var names.z)))
      (.application_node (.var names.z) (.var names.z)) (by decide)⟩

/-- C2 (substitution under a capturing binder), the code at the failing input
`lambda_node<y, y>` with `x <= y`: the code returns `lambda_node<y', y>`, the
binder shadowed and the body untouched, where the claim (and the source's own
comment `lambda(y', a[y <= y'][x <= b])`) asks for the body with `y` renamed to
`y'` first, that is `lambda_node<y', y'>`. In general the code only replaces the
parameter: for a parameter different from the target and free in the
replacement, the result is the shadowed parameter over the substitution into the
unrenamed body. -/
theorem substitution_lambda_shadow_divergence :
    substitution_result (.lambda_node names.y (.var names.y))
        ⟨names.x, .var names.y⟩
      = .lambda_node (.shadowed names.y) (.var names.y)
    ∧ Term.lambda_node (.shadowed names.y)
        (substitution_result
          (substitution_result (.var names.y)
            ⟨names.y, .var (.shadowed names.y)⟩)
          ⟨names.x, .var names.y⟩)
      = .lambda_node (.shadowed names.y) (.var (.shadowed names.y))
    ∧ (∀ (param target : Ident) (body r : Term), param ≠ target →
        param ∈ free_variables r →
        substitution_result (.lambda_node param body) ⟨target, r⟩
          = .lambda_node (.shadowed param) (substitution_result body ⟨target, r⟩)) :=
  ⟨by decide, by decide,
    fun param target body r h hr =>
      substitution_result_lambda_shadow param body ⟨target, r⟩ h hr⟩

/-- C3 as stated fails: in `lambda y. x`, substituting `y y'` for `x` (with `y'`
the shadow of `y`) gives `lambda y'. (y y')`; `x` was free in the term, `y'` is
free in the replacement, and `y'` is bound, not free, in the result. -/
theorem capture_avoidance_counterexample :
    names.x
        ∈ free_variables (.lambda_node names.y (.var names.x))
    ∧ Ident.shadowed names.y
        ∈ free_variables (.application_node (.var names.y)
            (.var (.shadowed names.y)))
    ∧ Ident.shadowed names.y
        ∉ free_variables (substitution_result
            (.lambda_node names.y (.var names.x))
            ⟨names.x, .application_node (.var names.y)
              (.var (.shadowed names.y))⟩) := by
  decide

/-- C3 (capture avoidance), amended. For every term `t`, target `x` free in `t`
and replacement `r` none of whose free variables is the shadow of another free
variable of `r`: every free variable of `r` is a free variable of
`substitute(t, (x, r))`. -/
theorem capture_avoidance (t : Term) (x : Ident) (r : Term)
    (hx : x ∈ free_variables t)
    (hfresh : ∀ p ∈ free_variables r, Ident.shadowed p ∉ free_variables r) :
    ∀ v ∈ free_variables r, v ∈ free_variables (substitution_result t ⟨x, r⟩) := by
  intro v hv
  induction t with
  | var w =>
      have hw : w = x := ((mem_free_variables_var _ _).mp hx).symm
      simpa [substitution_result, hw] using hv
  | lambda_node p e ih =>
      have hx2 := (mem_free_variables_lambda _ _ _).mp hx
      have hp : p ≠ (subst.mk x r).prim := fun hp => hx2.2 hp.symm
      by_cases hfv : p ∈ free_variables r
      · rw [substitution_result_lambda_shadow p e ⟨x, r⟩ hp hfv, mem_free_variables_lambda]
        exact ⟨ih hx2.1, fun hvp => hfresh p hfv (hvp ▸ hv)⟩
      · rw [substitution_result_lambda_keep p e ⟨x, r⟩ hp hfv, mem_free_variables_lambda]
        exact ⟨ih hx2.1, fun hvp => hfv (hvp ▸ hv)⟩
  | application_node f a ihf iha =>
      simp only [substitution_result, mem_free_variables_application]
      rcases (mem_free_variables_application _ _ _).mp hx with h | h
      · exact Or.inl (ihf h)
      · exact Or.inr (iha h)

/-- Witness of amended C3 at `lambda y. x` with `y z` substituted for `x`: the
free variable `y` of the replacement is free in the result. -/
theorem capture_avoidance_witness :
    names.x ∈ free_variables (.lambda_node names.y (.var names.x))
    ∧ names.y ∈ free_variables (substitution_result
          (.lambda_node names.y (.var names.x))
          ⟨names.x, .application_node (.var names.y) (.var names.z)⟩) :=
  ⟨by decide,
    capture_avoidance (.lambda_node names.y (.var names.x)) names.x
      (.application_node (.var names.y) (.var names.z))
      (by decide) (by decide) names.y (by decide)⟩

/-- C4. For distinct identifiers `x` and `y`, substituting `y` for `x` in
`lambda y. x` does not give `lambda y. y`: the result is an abstraction whose
parameter differs from `y` and whose body is the variable `y`, and `y` is free
in it. -/
theorem substitution_renames_capturing_binder (x y : Ident) (hxy : x ≠ y) :
    substitution_result (.lambda_node y (.var x)) ⟨x, .var y⟩ ≠ .lambda_node y (.var y)
    ∧ (∃ p, p ≠ y
        ∧ substitution_result (.lambda_node y (.var x)) ⟨x, .var y⟩ = .lambda_node p (.var y))
    ∧ y ∈ free_variables (substitution_result (.lambda_node y (.var x)) ⟨x, .var y⟩) := by
  have hs : Ident.shadowed y ≠ y := by
    intro h
    have := congrArg sizeOf h
    simp at this
  have hres : substitution_result (.lambda_node y (.var x)) ⟨x, .var y⟩
      = .lambda_node (.shadowed y) (.var y) := by
    rw [substitution_result_lambda_shadow y (.var x) ⟨x, .var y⟩ (fun h => hxy h.symm)
      ((mem_free_variables_var _ _).mpr rfl)]
    simp [substitution_result]
  rw [hres]
  refine ⟨?_, ⟨.shadowed y, hs, rfl⟩, ?_⟩
  · intro h
    injection h with h1 _
    exact hs h1
  · rw [mem_free_variables_lambda, mem_free_variables_var]
    exact ⟨rfl, fun h => hs h.symm⟩

/-- Witness of C4 at `x = variable_node<23>`, `y = variable_node<24>`. -/
theorem substitution_renames_capturing_binder_witness :
    substitution_result (.lambda_node names.y (.var names.x))
        ⟨names.x, .var names.y⟩
      ≠ .lambda_node names.y (.var names.y)
    ∧ (∃ p, p ≠ names.y
        ∧ substitution_result (.lambda_node names.y (.var names.x))
            ⟨names.x, .var names.y⟩
          = .lambda_node p (.var names.y))
    ∧ names.y
        ∈ free_variables (substitution_result
            (.lambda_node names.y (.var names.x))
            ⟨names.x, .var names.y⟩) :=
  substitution_renames_capturing_binder names.x names.y (by decide)

/-- C5 (free-variable correctness). An identifier is a member of
`freeVariables(t)` exactly when it has a free occurrence in `t` (the reference
predicate `FreeIn`); and `freeVariables(lambda x. x y) = [y]` for `x` different
from `y`. -/
theorem free_variables_correct (x y : Ident) (hxy : x ≠ y) :
    (∀ (t : Term) (v : Ident), v ∈ free_variables t ↔ FreeIn v t)
    ∧ free_variables (.lambda_node x (.application_node (.var x) (.var y))) = [y] := by
  refine ⟨mem_free_variables_iff_FreeIn, ?_⟩
  have hyx : ¬ y = x := fun h => hxy h.symm
  simp [free_variables, type_list.concat, type_list.remove_duplicates, Remove_duplicates,
    Remove_duplicates_impl, remove_completely_eq_filter, hxy, hyx, List.filter]

/-- Witness of C5 at `x = variable_node<23>`, `y = variable_node<24>`. -/
theorem free_variables_correct_witness :
    (∀ (t : Term) (v : Ident), v ∈ free_variables t ↔ FreeIn v t)
    ∧ free_variables (.lambda_node names.x
        (.application_node (.var names.x) (.var names.y)))
      = [names.y] :=
  free_variables_correct names.x names.y (by decide)

/-- C6 as stated fails: `x` is not free in `F = lambda y. y`, full normalization
of `lambda x. (F x)` returns `lambda x. x` (beta fires inside before eta is
tried), full normalization of `F` returns `F`, and the two results are not
structurally equal. -/
theorem eta_law_counterexample :
    names.x ∉ free_variables (.lambda_node names.y (.var names.y))
    ∧ evaluate 2
          (.lambda_node names.x
            (.application_node (.lambda_node names.y (.var names.y)) (.var names.x)))
        = some (.lambda_node names.x (.var names.x))
    ∧ evaluate 1 (.lambda_node names.y (.var names.y))
        = some (.lambda_node names.y (.var names.y))
    ∧ symb_eq (.lambda_node names.x (.var names.x)) (.lambda_node names.y (.var names.y))
        = false := by
  decide

/-- C6 (eta law), amended. For every term `F` whose reduction pass does not
return an Abstraction, and every identifier `x` not free in `F`: full
normalization of `lambda x. (F x)` terminates exactly when full normalization of
`F` does, and with the same result. -/
theorem eta_law (F : Term) (x : Ident) (fuel : Nat) (r : Term)
    (hx : x ∉ free_variables F)
    (hF : ∀ v e, Full_reduction_impl F ≠ .lambda_node v e) :
    (evaluate fuel F = some r →
        evaluate (fuel + 1) (.lambda_node x (.application_node F (.var x))) = some r)
    ∧ (evaluate fuel (.lambda_node x (.application_node F (.var x))) = some r →
        evaluate (fuel + 1) F = some r) := by
  have hxp : x ∉ free_variables (Full_reduction_impl F) :=
    fun h => hx (free_variables_pass_subset F x h)
  have hpass : Full_reduction_impl (.lambda_node x (.application_node F (.var x)))
      = Full_reduction_impl F := by
    simp only [Full_reduction_impl, beta_reduction_of_not_lambda _ _ hF,
      eta_reduction_fires x _ hxp]
  have hne : ¬ (is_irreducible (.lambda_node x (.application_node F (.var x))) = true
      ∧ is_irreducible F = true) := by
    intro h
    have h1 := pass_eq_of_irreducible _ h.1
    have h2 := pass_eq_of_irreducible _ h.2
    rw [hpass, h2] at h1
    exact ne_lambda_application_self x F (.var x) h1.symm
  exact ⟨full_reduction_of_same_pass fuel _ _ r hpass hne,
    full_reduction_of_same_pass fuel _ _ r hpass.symm (fun h => hne ⟨h.2, h.1⟩)⟩

/-- Witness of amended C6 at `F = z z` and `x`: both evaluate to `z z`. -/
theorem eta_law_witness :
    names.x ∉ free_variables (.application_node (.var names.z) (.var names.z))
    ∧ evaluate 2
          (.lambda_node names.x
            (.application_node (.application_node (.var names.z) (.var names.z))
              (.var names.x)))
        = some (.application_node (.var names.z) (.var names.z)) :=
  ⟨by decide,
    (eta_law (.application_node (.var names.z) (.var names.z)) names.x 1
      (.application_node (.var names.z) (.var names.z)) (by decide)
      (by intro v e; simp [Full_reduction_impl, beta_reduction])).1 (by decide)⟩

/-- C7 (identity combinator). For every identifier `x` and every term `N`, closed
or not: `apply(abstract(x, x), N)`, the full normalization of
`(lambda x. x) N`, terminates exactly when `evaluate(N)` does and with the same
result; when `N` is already a fixpoint of the reduction pass, the result is `N`
itself. -/
theorem identity_combinator (x : Ident) (N : Term) (fuel : Nat) (r : Term) :
    (evaluate fuel N = some r →
        Node_base.operator_call (fuel + 1) (lambda x (.var x)) N = some r)
    ∧ (Node_base.operator_call fuel (lambda x (.var x)) N = some r →
        evaluate (fuel + 1) N = some r)
    ∧ (is_irreducible N = true →
        Node_base.operator_call 2 (lambda x (.var x)) N = some N) := by
  have hpass : Full_reduction_impl (.application_node (.lambda_node x (.var x)) N)
      = Full_reduction_impl N := by
    simp [Full_reduction_impl, eta_reduction, beta_reduction, substitution_result]
  have hne : ¬ (is_irreducible (.application_node (.lambda_node x (.var x)) N) = true
      ∧ is_irreducible N = true) := by
    intro h
    have h1 := pass_eq_of_irreducible _ h.1
    have h2 := pass_eq_of_irreducible _ h.2
    rw [hpass, h2] at h1
    exact ne_application_self_arg _ N h1.symm
  have hfwd := full_reduction_of_same_pass fuel _ _ r hpass hne
  have hbwd := full_reduction_of_same_pass fuel _ _ r hpass.symm (fun h => hne ⟨h.2, h.1⟩)
  refine ⟨hfwd, hbwd, ?_⟩
  intro hi
  exact full_reduction_of_same_pass 1 _ _ N hpass hne (full_reduction_of_irreducible 0 N hi)

/-- Witness of C7 at the closed term `N = lambda y. lambda z. y z`, which
evaluates to `lambda y. y`. -/
theorem identity_combinator_witness :
    free_variables (.lambda_node names.y (.lambda_node names.z
        (.application_node (.var names.y) (.var names.z)))) = []
    ∧ evaluate 2 (.lambda_node names.y (.lambda_node names.z
        (.application_node (.var names.y) (.var names.z))))
      = some (.lambda_node names.y (.var names.y))
    ∧ Node_base.operator_call 3 (lambda names.x (.var names.x))
        (.lambda_node names.y (.lambda_node names.z
          (.application_node (.var names.y) (.var names.z))))
      = some (.lambda_node names.y (.var names.y)) :=
  ⟨by decide, by decide,
    (identity_combinator names.x
      (.lambda_node names.y (.lambda_node names.z
        (.application_node (.var names.y) (.var names.z)))) 2
      (.lambda_node names.y (.var names.y))).1 (by decide)⟩

/-- C8 (constant combinator). For distinct identifiers `x`, `y` and closed
terms `A`, `B` such that `evaluate(A)` terminates with `r`:
`apply(abstract(x, y, x), A)` terminates with the term `lambda y. r`, and
applying that term to `B` terminates with `r`, so
`apply(apply(abstract(x, y, x), A), B)` is `evaluate(A)`. -/
theorem constant_combinator (x y : Ident) (A B r : Term) (fuel : Nat)
    (hxy : x ≠ y) (hA : free_variables A = []) (hB : free_variables B = [])
    (h : evaluate fuel A = some r) :
    ∃ M, Node_base.operator_call (fuel + 1) (lambda x (lambda y (.var x))) A = some M
      ∧ Node_base.operator_call 2 M B = some r := by
  have hK : lambda x (lambda y (.var x)) = .lambda_node x (.lambda_node y (.var x)) := rfl
  have hpA := free_variables_pass_closed A hA
  have hpB := free_variables_pass_closed B hB
  have hr : free_variables r = [] := by
    apply List.eq_nil_iff_forall_not_mem.mpr
    intro w hw
    have := free_variables_full_reduction_subset fuel A r h w hw
    simp [hA] at this
  have hri : is_irreducible r = true := full_reduction_irreducible fuel A r h
  have hyx : y ≠ (subst.mk x (Full_reduction_impl A)).prim := fun hc => hxy hc.symm
  have hyA : y ∉ free_variables (subst.mk x (Full_reduction_impl A)).sec := by simp [hpA]
  have hpass1 : Full_reduction_impl
      (.application_node (.lambda_node x (.lambda_node y (.var x))) A)
      = .lambda_node y (Full_reduction_impl A) := by
    simp only [Full_reduction_impl, eta_reduction, beta_reduction]
    rw [substitution_result_lambda_keep y (.var x) _ hyx hyA]
    simp [substitution_result]
  have hni1 : ¬ is_irreducible
      (.application_node (.lambda_node x (.lambda_node y (.var x))) A) = true := by
    intro hc
    have h1 := pass_eq_of_irreducible _ hc
    rw [hpass1] at h1
    cases h1
  have hyr : y ∉ free_variables r := by simp [hr]
  have hpass2 : Full_reduction_impl (.application_node (.lambda_node y r) B) = r := by
    simp only [Full_reduction_impl, pass_eq_of_irreducible r hri,
      eta_reduction_of_not_free y r hyr, beta_reduction]
    exact substitution_result_of_not_free r ⟨y, Full_reduction_impl B⟩ hpB hyr
  have hni2 : ¬ is_irreducible (.application_node (.lambda_node y r) B) = true := by
    intro hc
    have h1 := pass_eq_of_irreducible _ hc
    rw [hpass2] at h1
    exact ne_application_lambda_self y r B h1.symm
  refine ⟨.lambda_node y r, ?_, ?_⟩
  · rw [hK, Node_base.operator_call, full_reduction_of_reducible fuel _ hni1, hpass1,
      full_reduction_lambda_closed fuel y _ hpA, full_reduction_pass fuel A r h]
    rfl
  · rw [Node_base.operator_call, full_reduction_of_reducible 1 _ hni2, hpass2]
    exact full_reduction_of_irreducible 0 r hri

/-- Witness of C8 at `A = (lambda z. z) (lambda z. z)`, which evaluates to
`lambda z. z`, and `B = lambda y. y`. -/
theorem constant_combinator_witness :
    evaluate 2 (.application_node (.lambda_node names.z (.var names.z))
        (.lambda_node names.z (.var names.z)))
      = some (.lambda_node names.z (.var names.z))
    ∧ ∃ M, Node_base.operator_call 3 (lambda names.x (lambda names.y (.var names.x)))
          (.application_node (.lambda_node names.z (.var names.z))
            (.lambda_node names.z (.var names.z))) = some M
        ∧ Node_base.operator_call 2 M (.lambda_node names.y (.var names.y))
          = some (.lambda_node names.z (.var names.z)) :=
  ⟨by decide,
    constant_combinator names.x names.y
      (.application_node (.lambda_node names.z (.var names.z))
        (.lambda_node names.z (.var names.z)))
      (.lambda_node names.y (.var names.y))
      (.lambda_node names.z (.var names.z)) 2
      (by decide) (by decide) (by decide) (by decide)⟩

/-- C9 as stated fails: the term `(lambda x. x x) (lambda x. x x)` is a fixpoint of
the reduction pass, `is_irreducible` holds for it and full normalization returns
it at once, and it is a beta-redex. -/
theorem fixpoint_not_normal_counterexample :
    is_irreducible
        (.application_node
          (.lambda_node names.x (.application_node (.var names.x) (.var names.x)))
          (.lambda_node names.x (.application_node (.var names.x) (.var names.x))))
      = true
    ∧ evaluate 1
        (.application_node
          (.lambda_node names.x (.application_node (.var names.x) (.var names.x)))
          (.lambda_node names.x (.application_node (.var names.x) (.var names.x))))
      = some (.application_node
          (.lambda_node names.x (.application_node (.var names.x) (.var names.x)))
          (.lambda_node names.x (.application_node (.var names.x) (.var names.x))))
    ∧ HasRedex
        (.application_node
          (.lambda_node names.x (.application_node (.var names.x) (.var names.x)))
          (.lambda_node names.x (.application_node (.var names.x) (.var names.x)))) :=
  ⟨by decide, by decide, HasRedex.beta _ _ _⟩

/-- C9 (fixpoints and normal forms), amended. Every term that is a fixpoint of the
reduction pass (`is_irreducible` holds, full normalization stops there) and on
which the pass fires no beta rule (no `beta_reduction` instantiated by the pass
has `has_effect`) is a normal form: it contains no beta-redex and no eta-redex
anywhere. -/
theorem fixpoint_is_normal (t : Term) (hfix : is_irreducible t = true)
    (hbeta : pass_beta_effect t = false) :
    evaluate 1 t = some t ∧ ¬ HasRedex t := by
  have hpass := pass_eq_of_irreducible t hfix
  have hno : pass_has_effect t = false :=
    (node_count_pass_le t hbeta).2 (by rw [hpass])
  exact ⟨full_reduction_of_irreducible 0 t hfix, (no_redex_of_pass_without_effect t hno).2.2⟩

/-- Witness of amended C9 at `lambda x. x (y x)`. -/
theorem fixpoint_is_normal_witness :
    is_irreducible (.lambda_node names.x (.application_node (.var names.x)
        (.application_node (.var names.y) (.var names.x)))) = true
    ∧ evaluate 1 (.lambda_node names.x (.application_node (.var names.x)
        (.application_node (.var names.y) (.var names.x))))
      = some (.lambda_node names.x (.application_node (.var names.x)
        (.application_node (.var names.y) (.var names.x)))) :=
  ⟨by decide,
    (fixpoint_is_normal
      (.lambda_node names.x (.application_node (.var names.x)
        (.application_node (.var names.y) (.var names.x)))) (by decide) (by decide)).1⟩

/-- C10 (construction invariant for substitution), the code at the failing input
`(x z)[x <= lambda y. y]`: the term `x z` and the replacement `lambda y. y` are
irreducible, `operator[]` returns the substitution result
`(lambda y. y) z` as it is, and that term is not irreducible: the reduction pass
turns it into `z`. -/
theorem operator_index_not_normalized :
    is_irreducible (.application_node (.var names.x) (.var names.z)) = true
    ∧ is_irreducible (.lambda_node names.y (.var names.y)) = true
    ∧ Node_base.operator_index (.application_node (.var names.x) (.var names.z))
        ⟨names.x, .lambda_node names.y (.var names.y)⟩
      = .application_node (.lambda_node names.y (.var names.y)) (.var names.z)
    ∧ is_irreducible
        (.application_node (.lambda_node names.y (.var names.y)) (.var names.z)) = false
    ∧ Full_reduction_impl
        (.application_node (.lambda_node names.y (.var names.y)) (.var names.z))
      = .var names.z := by
  decide

end nightly_lambda

namespace nightly_lambda

open std_ext

/-- C11 (unshadow removes every shadow), the code at two failing inputs. The term
`lambda x. lambda y'. (y x)`, which `lambda(w, x, y, w(x))(y)` returns, has one
shadow identifier; `unshadow` with the fresh name `a` returns it unchanged (the
primary template of `_Unshadow` takes a `lambda_node` with a plain parameter and
does not look into the body), so the result still has the shadow parameter `y'`.
The term `lambda y'. y'` with the name `a` gives the variable `y'`: the
specialisation renames inside the body and drops the binder, and the shadow is
still there. -/
theorem unshadow_leaves_shadow :
    Node_base.operator_call 2
        (lambda names.w (lambda names.x (lambda names.y
          (.application_node (.var names.w) (.var names.x)))))
        (.var names.y)
      = some (.lambda_node names.x (.lambda_node (.shadowed names.y)
          (.application_node (.var names.y) (.var names.x))))
    ∧ Node_base.unshadow
        (.lambda_node names.x (.lambda_node (.shadowed names.y)
          (.application_node (.var names.y) (.var names.x)))) [names.a]
      = some (.lambda_node names.x (.lambda_node (.shadowed names.y)
          (.application_node (.var names.y) (.var names.x))))
    ∧ has_shadow (.lambda_node names.x (.lambda_node (.shadowed names.y)
          (.application_node (.var names.y) (.var names.x)))) = true
    ∧ Node_base.unshadow
        (.lambda_node (.shadowed names.y) (.var (.shadowed names.y))) [names.a]
      = some (.var (.shadowed names.y))
    ∧ has_shadow (.var (.shadowed names.y)) = true := by
  decide

/-- C12 (unshadow leaves a term without shadows alone), the code at the failing
input `application_node<x, y>` with the name `a`: the term has no shadow
identifier and the instantiation of `_Unshadow` is ill-formed, so no term is
returned. The same holds for every `application_node` with a non-empty name
list. On every term without a shadow identifier that is not an
`application_node` the code does what the claim says: the term unchanged, not
renamed, the whole name list remaining. -/
theorem unshadow_application_ill_formed :
    has_shadow (.application_node (.var names.x) (.var names.y)) = false
    ∧ Node_base.unshadow (.application_node (.var names.x) (.var names.y)) [names.a] = none
    ∧ (∀ (f a : Term) (first : Ident) (rest : List Ident),
        Unshadow (.application_node f a) (first :: rest) = none)
    ∧ (∀ (t : Term) (names : List Ident), has_shadow t = false →
        (∀ f a, t ≠ .application_node f a) →
        Unshadow t names = some ⟨false, t, .type_list names⟩) := by
  refine ⟨by decide, by decide, fun f a first rest => rfl, ?_⟩
  intro t names hs hna
  cases t with
  | var v => cases names <;> rfl
  | application_node f a => exact absurd rfl (hna f a)
  | lambda_node v e =>
      cases v with
      | variable_node n => cases names <;> rfl
      | shadowed v => simp [has_shadow, is_shadowed] at hs

/-- C13 as stated fails: `unshadow` of `lambda y'. y`, an Abstraction whose
parameter is a shadow identifier, with an empty name list is no error; it
returns the term. -/
theorem unshadow_exhausted_counterexample :
    is_shadowed (.shadowed names.y) = true
    ∧ Node_base.unshadow
        (Node_base.self (.lambda_node (.shadowed names.y) (.var names.y))) []
      = some (.lambda_node (.shadowed names.y) (.var names.y)) := by
  decide

/-- C13 (unshadow and an exhausted name supply), amended. The struct `_Unshadow`
with an empty name list answers every expression unchanged, with `has_effect`
false, and on every expression that is not an Application it has an answer for
every name list, however short. The member call `t.unshadow(names...)`, which
works on the `self` of `_Node_base`, does the same on every receiver `t` that is
not a shadow Variable object: with no names it returns `t`, and when `t` is not
an Application it returns a term for every name list. -/
theorem unshadow_never_exhausted (t : Term) :
    Unshadow t [] = some ⟨false, t, .type_list []⟩
    ∧ ((∀ f a, t ≠ .application_node f a) →
        ∀ names : List Ident, ∃ u, Unshadow t names = some u)
    ∧ ((∀ v, t ≠ .var (.shadowed v)) →
        Node_base.unshadow (Node_base.self t) [] = some t)
    ∧ ((∀ v, t ≠ .var (.shadowed v)) → (∀ f a, t ≠ .application_node f a) →
        ∀ names : List Ident, ∃ r, Node_base.unshadow (Node_base.self t) names = some r) := by
  refine ⟨Unshadow_nil t, fun h names => Unshadow_of_not_application t names h, ?_, ?_⟩
  · intro hobj
    rw [Node_base_self_of_not_shadow t hobj]
    simp [Node_base.unshadow, Unshadow_nil]
  · intro hobj happ names
    rw [Node_base_self_of_not_shadow t hobj]
    obtain ⟨u, hu⟩ := Unshadow_of_not_application t names happ
    exact ⟨u.type, by simp [Node_base.unshadow, hu]⟩

/-- Witness of amended C13 at `lambda y'. lambda z'. y`, which has two
Abstractions with a shadow parameter: with no name it is returned as it is, and
with the one name `a` a term is returned. -/
theorem unshadow_never_exhausted_witness :
    Node_base.unshadow
        (Node_base.self (.lambda_node (.shadowed names.y)
          (.lambda_node (.shadowed names.z) (.var names.y)))) []
      = some (.lambda_node (.shadowed names.y)
          (.lambda_node (.shadowed names.z) (.var names.y)))
    ∧ ∃ r, Node_base.unshadow
        (Node_base.self (.lambda_node (.shadowed names.y)
          (.lambda_node (.shadowed names.z) (.var names.y)))) [names.a] = some r :=
  ⟨(unshadow_never_exhausted
      (.lambda_node (.shadowed names.y)
        (.lambda_node (.shadowed names.z) (.var names.y)))).2.2.1
      (fun v h => by cases h),
    (unshadow_never_exhausted
      (.lambda_node (.shadowed names.y)
        (.lambda_node (.shadowed names.z) (.var names.y)))).2.2.2
      (fun v h => by cases h) (fun f a h => by cases h) [names.a]⟩

/-- C14 as stated fails. Renaming `x` to `y` in `lambda x. y` gives `lambda y. y`:
the free variable `y` is captured and the free variables go from `[y]` to none.
Renaming `x` to `y` in `lambda x. lambda y. y'` gives `lambda y. lambda y'. y'`:
the inner binder is shadowed and captures the free shadow `y'`. -/
theorem rename_captures_counterexample :
    free_variables (.lambda_node names.x (.var names.y)) = [names.y]
    ∧ Node_base.rename (Node_base.self (.lambda_node names.x (.var names.y)))
        names.x names.y
      = .lambda_node names.y (.var names.y)
    ∧ free_variables (.lambda_node names.y (.var names.y)) = []
    ∧ free_variables
        (.lambda_node names.x (.lambda_node names.y (.var (.shadowed names.y))))
      = [.shadowed names.y]
    ∧ free_variables
        (Node_base.rename
          (Node_base.self
            (.lambda_node names.x (.lambda_node names.y (.var (.shadowed names.y)))))
          names.x names.y)
      = [] := by
  decide

/-- C14 (renaming preserves the free variables), amended. For every term `t` and
identifiers `oldId`, `newId` such that neither `newId` nor its shadow is free in
`t`: the term that `alpha_relation` answers for `t` has exactly the free
variables of `t`, and so has the term that the member call
`t.rename(oldId, newId)`, which works on the `self` of `_Node_base`, returns on
a receiver `t` that is not a shadow Variable object. -/
theorem rename_preserves_free_variables (t : Term) (oldId newId : Ident)
    (hnew : newId ∉ free_variables t)
    (hshadow : Ident.shadowed newId ∉ free_variables t) :
    (∀ w, w ∈ free_variables (alpha_relation t oldId newId).1 ↔ w ∈ free_variables t)
    ∧ ((∀ v, t ≠ .var (.shadowed v)) →
        ∀ w, w ∈ free_variables (Node_base.rename (Node_base.self t) oldId newId)
          ↔ w ∈ free_variables t) := by
  have key : ∀ w, w ∈ free_variables (alpha_relation t oldId newId).1
      ↔ w ∈ free_variables t := by
    intro w
    constructor
    · exact free_variables_alpha_subset t oldId newId w
    · intro hw
      exact free_variables_alpha_superset t oldId newId w hw
        (fun h => hnew (h ▸ hw)) (fun h => hshadow (h ▸ hw))
  refine ⟨key, ?_⟩
  intro hobj w
  rw [Node_base_self_of_not_shadow t hobj]
  exact key w

/-- Witness of amended C14 at the receiver `lambda x. (x z)` renamed from `x` to
`y`. -/
theorem rename_preserves_free_variables_witness :
    Node_base.rename
        (Node_base.self
          (.lambda_node names.x (.application_node (.var names.x) (.var names.z))))
        names.x names.y
      = .lambda_node names.y (.application_node (.var names.y) (.var names.z))
    ∧ (names.z ∈ free_variables (Node_base.rename
          (Node_base.self
            (.lambda_node names.x (.application_node (.var names.x) (.var names.z))))
          names.x names.y)
        ↔ names.z ∈ free_variables
          (.lambda_node names.x (.application_node (.var names.x) (.var names.z)))) :=
  ⟨by decide,
    (rename_preserves_free_variables
      (.lambda_node names.x (.application_node (.var names.x) (.var names.z)))
      names.x names.y (by decide) (by decide)).2 (fun v h => by cases h) names.z⟩

/-- C15. The list `freeVariables(t)` has no duplicates, for every term `t`. -/
theorem free_variables_nodup (t : Term) : (free_variables t).Nodup := by
  induction t with
  | var v => simp [free_variables]
  | lambda_node v e ih =>
      simp only [free_variables, remove_completely_eq_filter]
      exact ih.filter _
  | application_node f a _ _ =>
      simp only [free_variables, type_list.remove_duplicates]
      exact Remove_duplicates_nodup _

end nightly_lambda

namespace std_ext

/-- C16 as stated fails. On the sequence `10, 20, 30` the valid positions `2, 0`,
given in descending order, make `remove_at` answer `10, 20, 20, 30`: nothing is
removed and one element is doubled, where the sequence without the positions
`2` and `0` is `20`. And the specialisation `type_list<>` has no member
`remove_at`, so the empty sequence with no index has no result. -/
theorem remove_at_counterexample :
    type_list.remove_at [10, 20, 30] [2, 0] = some [10, 20, 20, 30]
    ∧ remove_positions [10, 20, 30] [2, 0] = [20]
    ∧ type_list.remove_at ([] : List Nat) [] = none
    ∧ remove_positions ([] : List Nat) [] = [] := by
  decide

/-- C16 (removal by position), amended. For every non-empty sequence `s` and
every list of indices that is ascending and holds only valid positions of `s`,
`removeAt(indices...)` returns `s` with exactly the elements at those positions
removed and all other elements kept once each in their original order. -/
theorem remove_at_ascending {α : Type} (s : List α) (indices : List Nat)
    (hs : s ≠ []) (hsorted : List.Sorted (· ≤ ·) indices)
    (hvalid : ∀ i ∈ indices, i < s.length) :
    type_list.remove_at s indices = some (remove_positions s indices) := by
  cases s with
  | nil => exact absurd rfl hs
  | cons x xs =>
      cases indices with
      | nil =>
          simp [type_list.remove_at, Remove_at, remove_positions, remove_positions_from_nil]
      | cons i rest =>
          have hinv := invert_index_sequence_sorted i rest (x :: xs).length hsorted hvalid
          have hpos := tuple_elements_remove_positions (i :: rest) (x :: xs) 0
          simp only [Nat.add_zero] at hpos
          simp only [type_list.remove_at, Remove_at, type_list.size, hinv, Extract_and_choose,
            type_list.choose, remove_positions]
          exact hpos

/-- Witness of amended C16 at the sequence `10, 20, 30, 40` and the indices
`0, 2, 2`. -/
theorem remove_at_ascending_witness :
    type_list.remove_at [10, 20, 30, 40] [0, 2, 2] = some [20, 40]
    ∧ type_list.remove_at [10, 20, 30, 40] [0, 2, 2]
      = some (remove_positions [10, 20, 30, 40] [0, 2, 2]) :=
  ⟨by decide,
    remove_at_ascending [10, 20, 30, 40] [0, 2, 2] (by decide) (by decide) (by decide)⟩

/-- C17 (deduplicate). For every sequence `s`, `remove_duplicates` is the
reference walk that keeps the first occurrence of each value: the result has no
duplicates, has the same members as `s`, lists them in the order of their first
occurrences in `s`, and deduplicating it again returns it unchanged. -/
theorem remove_duplicates_keeps_first {α : Type} [DecidableEq α] (s : List α) :
    type_list.remove_duplicates s = keep_first_occurrences [] s
    ∧ (type_list.remove_duplicates s).Nodup
    ∧ (∀ x, x ∈ type_list.remove_duplicates s ↔ x ∈ s)
    ∧ type_list.remove_duplicates (type_list.remove_duplicates s)
      = type_list.remove_duplicates s := by
  refine ⟨?_, Remove_duplicates_nodup s, fun x => mem_remove_duplicates s x, ?_⟩
  · rw [keep_first_occurrences_eq]
    simp [type_list.remove_duplicates]
  · exact Remove_duplicates_of_nodup _ (Remove_duplicates_nodup s)

end std_ext

namespace nightly_lambda

open std_ext

/-- C18 (a shadow is unequal to its origin), the code at the failing input
`shadowed<y>` against `y`. The free function `symb_eq` answers false both ways,
for every identifier. The member function called on `y` with the shadow as
argument answers false, and called on the shadow `shadowed<y>` with `y` as
argument it answers true: inside `_Node_base` the name `self` is the
`variable_node` the shadow derives from, not the `self` that `shadowed`
declares. So the member form takes a shadow for its origin and is not
symmetric. -/
theorem member_symb_eq_of_shadow :
    symb_eq (.var (.shadowed names.y)) (.var names.y) = false
    ∧ symb_eq (.var names.y) (.var (.shadowed names.y)) = false
    ∧ Node_base.symb_eq (.var names.y) (.var (.shadowed names.y)) = false
    ∧ Node_base.symb_eq (.var (.shadowed names.y)) (.var names.y) = true
    ∧ (∀ v : Ident, symb_eq (.var (.shadowed v)) (.var v) = false
        ∧ symb_eq (.var v) (.var (.shadowed v)) = false)
    ∧ (∀ n : Nat, Node_base.symb_eq (.var (.shadowed (.variable_node n)))
        (.var (.variable_node n)) = true) := by
  have hs : ∀ v : Ident, Ident.shadowed v ≠ v := by
    intro v h
    have := congrArg sizeOf h
    simp at this
  refine ⟨by decide, by decide, by decide, by decide, ?_, ?_⟩
  · intro v
    have h2 : ¬ v = Ident.shadowed v := fun h => hs v h.symm
    simp [symb_eq, hs v, h2]
  · intro n
    simp [Node_base.symb_eq, Node_base.self, variable_base]

/-- C19 (the primitive eta rule). For every identifier `v` and terms `f`, `a`:
`eta(v, Application(f, a))` has `has_effect` exactly when `a` is `Variable(v)` and
`v` is not in `freeVariables(f)`; when it fires the result is `f`, otherwise the
result is `Abstraction(v, Application(f, a))`; and on a body that is not an
Application, a variable or an Abstraction, it never fires. -/
theorem eta_reduction_rule (v : Ident) (f a : Term) :
    ((eta_reduction v (.application_node f a)).2 = true
        ↔ (a = .var v ∧ v ∉ free_variables f))
    ∧ ((eta_reduction v (.application_node f a)).2 = true →
        (eta_reduction v (.application_node f a)).1 = f)
    ∧ ((eta_reduction v (.application_node f a)).2 = false →
        (eta_reduction v (.application_node f a)).1
          = .lambda_node v (.application_node f a))
    ∧ (∀ w : Ident, eta_reduction v (.var w) = (.lambda_node v (.var w), false))
    ∧ (∀ (w : Ident) (e : Term),
        eta_reduction v (.lambda_node w e) = (.lambda_node v (.lambda_node w e), false)) := by
  refine ⟨?_, ?_, ?_, fun w => rfl, fun w e => rfl⟩
  · simp only [eta_reduction, Bool.and_eq_true, decide_eq_true_eq, Bool.not_eq_true',
      contains_eq_false_iff]
    constructor
    · intro h
      exact ⟨h.1.symm, h.2⟩
    · intro h
      exact ⟨h.1.symm, h.2⟩
  · intro h
    simp only [eta_reduction] at h
    simp only [eta_reduction, h, if_true]
  · intro h
    exact eta_reduction_of_no_effect v _ h

/-- Witness of C19 at `eta(x, z x)`, which fires and returns `z`. -/
theorem eta_reduction_rule_witness :
    eta_reduction names.x (.application_node (.var names.z) (.var names.x))
      = (.var names.z, true)
    ∧ (eta_reduction names.x (.application_node (.var names.z) (.var names.x))).1
      = .var names.z :=
  ⟨by decide,
    (eta_reduction_rule names.x (.var names.z) (.var names.x)).2.1 (by decide)⟩

/-- C20 (makeAbstraction keeps normal forms). For every identifier `p` and every
body that contains no beta-redex and no eta-redex, the term that
`abstract(p, body)` returns contains no beta-redex and no eta-redex. -/
theorem lambda_keeps_normal_form (p : Ident) (body : Term) (h : ¬ HasRedex body) :
    ¬ HasRedex (lambda p body) := by
  cases hfire : (eta_reduction p body).2 with
  | true =>
      cases body with
      | var w => simp [eta_reduction] at hfire
      | lambda_node w e => simp [eta_reduction] at hfire
      | application_node f a =>
          have hres : lambda p (.application_node f a) = f := by
            simp only [eta_reduction] at hfire
            simp only [lambda, eta_reduction, hfire, if_true]
          rw [hres]
          exact fun hf => h (HasRedex.inFunc hf)
  | false =>
      have hres : lambda p body = .lambda_node p body :=
        eta_reduction_of_no_effect p body hfire
      rw [hres]
      intro hc
      cases hc with
      | eta _ f hf =>
          have hv : p ∉ free_variables f :=
            fun hm => hf ((mem_free_variables_iff_FreeIn f p).mp hm)
          rw [eta_reduction_fires p f hv] at hfire
          cases hfire
      | inLambda he => exact h he

/-- Witness of C20 at `abstract(x, z x)`, which is `z`, and at `abstract(x, x z)`,
which stays an Abstraction. -/
theorem lambda_keeps_normal_form_witness :
    lambda names.x (.application_node (.var names.z) (.var names.x)) = .var names.z
    ∧ ¬ HasRedex (lambda names.x (.application_node (.var names.z) (.var names.x))) :=
  ⟨by decide,
    lambda_keeps_normal_form names.x (.application_node (.var names.z) (.var names.x))
      (by intro h; cases h <;> rename_i h2 <;> cases h2)⟩

end nightly_lambda

namespace nightly_lambda

open std_ext

/-- C21 (unshadow renames the binder and keeps it), the code at the failing input
`lambda y'. y` with the name `a`: the code returns the variable `y`, where the
claim asks for the Abstraction `lambda a. y`; and `lambda y'. y'` with the name
`a` gives the variable `y'`, where the claim asks for `lambda a. a`. In general
the result for an Abstraction with a shadow parameter is `alpha_relation` of
the body: the renaming is applied to `_ExprTy` instead of the `lambda_node`, so
no Abstraction with the new name is built, the free uses of the shadow in the
body stay, and the rest of the names is not used. -/
theorem unshadow_drops_binder :
    Node_base.unshadow (.lambda_node (.shadowed names.y) (.var names.y)) [names.a]
      = some (.var names.y)
    ∧ Node_base.unshadow
        (.lambda_node (.shadowed names.y) (.var (.shadowed names.y))) [names.a]
      = some (.var (.shadowed names.y))
    ∧ (∀ (s : Ident) (body : Term) (n : Ident) (rest : List Ident),
        Node_base.unshadow (.lambda_node (.shadowed s) body) (n :: rest)
          = some (alpha_relation body (.shadowed s) n).1) :=
  ⟨by decide, by decide, fun _ _ _ _ => rfl⟩

/-- C22 as stated fails. Renaming `x` to `y` in `lambda x. lambda y. x` reports a
change and gives `lambda y. lambda y'. y`: the parameters go from `x, y` to
`y, y'`, so a second binder has a different parameter. Renaming `y'` to `y` in
`lambda y'. lambda y. y'` gives `lambda y. lambda y'. y`: the number of
Abstractions with the parameter `y'` stays one. -/
theorem rename_one_binder_counterexample :
    (alpha_relation (.lambda_node names.x (.lambda_node names.y (.var names.x)))
        names.x names.y).2 = true
    ∧ binders (.lambda_node names.x (.lambda_node names.y (.var names.x)))
      = [names.x, names.y]
    ∧ binders (Node_base.rename
        (.lambda_node names.x (.lambda_node names.y (.var names.x))) names.x names.y)
      = [names.y, .shadowed names.y]
    ∧ (alpha_relation
        (.lambda_node (.shadowed names.y) (.lambda_node names.y (.var (.shadowed names.y))))
        (.shadowed names.y) names.y).2 = true
    ∧ (binders
        (.lambda_node (.shadowed names.y)
          (.lambda_node names.y (.var (.shadowed names.y))))).count (.shadowed names.y) = 1
    ∧ (binders (Node_base.rename
        (.lambda_node (.shadowed names.y) (.lambda_node names.y (.var (.shadowed names.y))))
        (.shadowed names.y) names.y)).count (.shadowed names.y) = 1 := by
  decide

/-- C22 (rename targets one binder), amended. For every term `t` and identifiers
`oldId` different from `newId` such that `newId` is the parameter of no
Abstraction of `t`: if `rename(t, oldId, newId)` reports `changed`, then the
number of Abstractions whose parameter is `oldId` is exactly one less in the
result than in `t`, and the parameters of the result are those of `t` with the
first `oldId` replaced by `newId`, every other binder keeping its parameter. -/
theorem rename_one_binder (t : Term) (oldId newId : Ident) (hne : oldId ≠ newId)
    (hfresh : newId ∉ binders t)
    (hchanged : (alpha_relation t oldId newId).2 = true) :
    (binders (Node_base.rename t oldId newId)).count oldId + 1 = (binders t).count oldId
    ∧ ∃ l1 l2, oldId ∉ l1 ∧ binders t = l1 ++ oldId :: l2
        ∧ binders (Node_base.rename t oldId newId) = l1 ++ newId :: l2 := by
  obtain ⟨l1, l2, h0, h1, h2⟩ := binders_alpha_relation t oldId newId hfresh hchanged
  refine ⟨?_, l1, l2, h0, h1, h2⟩
  have hno : ¬ newId = oldId := fun hc => hne hc.symm
  have hcount : List.count oldId (newId :: l2) = List.count oldId l2 := by
    simp [List.count_cons, hno]
  simp only [Node_base.rename, h1, h2, List.count_append, List.count_cons_self, hcount]
  omega

/-- Witness of amended C22 at `(lambda x. x) (lambda x. x)` renamed from `x` to
`y`: only the first binder is renamed. -/
theorem rename_one_binder_witness :
    Node_base.rename
        (.application_node (.lambda_node names.x (.var names.x))
          (.lambda_node names.x (.var names.x))) names.x names.y
      = .application_node (.lambda_node names.y (.var names.y))
          (.lambda_node names.x (.var names.x))
    ∧ (binders (Node_base.rename
        (.application_node (.lambda_node names.x (.var names.x))
          (.lambda_node names.x (.var names.x))) names.x names.y)).count names.x + 1
      = (binders
        (.application_node (.lambda_node names.x (.var names.x))
          (.lambda_node names.x (.var names.x)))).count names.x :=
  ⟨by decide,
    (rename_one_binder
      (.application_node (.lambda_node names.x (.var names.x))
        (.lambda_node names.x (.var names.x))) names.x names.y
      (by decide) (by decide) (by decide)).1⟩

/-- C23. For all terms `f` and `a`, `freeVariables(f)` is a prefix of
`freeVariables(Application(f, a))`, and the remainder is the identifiers of
`freeVariables(a)` that are not in `freeVariables(f)`, in the order they have in
`freeVariables(a)`. -/
theorem free_variables_application_prefix (f a : Term) :
    free_variables (.application_node f a)
      = free_variables f
        ++ (free_variables a).filter (fun v => !decide (v ∈ free_variables f))
    ∧ free_variables f <+: free_variables (.application_node f a) := by
  have h : free_variables (.application_node f a)
      = free_variables f
        ++ (free_variables a).filter (fun v => !decide (v ∈ free_variables f)) := by
    simp only [free_variables, type_list.remove_duplicates, type_list.concat]
    exact Remove_duplicates_append _ _ (free_variables_no_duplicates f)
      (free_variables_no_duplicates a)
  exact ⟨h, ⟨_, h.symm⟩⟩

/-- C24 (reduction introduces no free variable). For every term `t`, every free
variable of the result of one reduction pass is a free variable of `t`; the same
holds for the result of `evaluate(t)` whenever it terminates; and a closed term
stays closed under the pass and under `evaluate`. -/
theorem reduction_adds_no_free_variable (t : Term) :
    (∀ w, w ∈ free_variables (Full_reduction_impl t) → w ∈ free_variables t)
    ∧ (∀ (fuel : Nat) (r : Term), evaluate fuel t = some r →
        ∀ w, w ∈ free_variables r → w ∈ free_variables t)
    ∧ (free_variables t = [] →
        free_variables (Full_reduction_impl t) = []
        ∧ ∀ (fuel : Nat) (r : Term), evaluate fuel t = some r → free_variables r = []) := by
  refine ⟨free_variables_pass_subset t,
    fun fuel r h w hw => free_variables_full_reduction_subset fuel t r h w hw, ?_⟩
  intro hclosed
  refine ⟨free_variables_pass_closed t hclosed, ?_⟩
  intro fuel r h
  apply List.eq_nil_iff_forall_not_mem.mpr
  intro w hw
  have := free_variables_full_reduction_subset fuel t r h w hw
  simp [hclosed] at this

/-- Witness of C24 at the closed term `(lambda x. lambda y. x) (lambda z. z)`,
which evaluates to the closed term `lambda y. lambda z. z`. -/
theorem reduction_adds_no_free_variable_witness :
    evaluate 2
        (.application_node
          (.lambda_node names.x (.lambda_node names.y (.var names.x)))
          (.lambda_node names.z (.var names.z)))
      = some (.lambda_node names.y (.lambda_node names.z (.var names.z)))
    ∧ free_variables (.lambda_node names.y (.lambda_node names.z (.var names.z))) = [] :=
  ⟨by decide,
    ((reduction_adds_no_free_variable
      (.application_node
        (.lambda_node names.x (.lambda_node names.y (.var names.x)))
        (.lambda_node names.z (.var names.z)))).2.2 (by decide)).2 2
      (.lambda_node names.y (.lambda_node names.z (.var names.z))) (by decide)⟩

/-- C25 (normal forms are left alone). For every term `t` that contains no
beta-redex and no eta-redex, one reduction pass returns `t` unchanged, so
`is_irreducible(t)` holds and `evaluate(t)` is `t` at the first round. -/
theorem normal_form_is_fixpoint (t : Term) (h : ¬ HasRedex t) :
    Full_reduction_impl t = t ∧ is_irreducible t = true ∧ evaluate 1 t = some t := by
  have hpass := pass_eq_of_no_redex t h
  have hi : is_irreducible t = true := by simp [is_irreducible, hpass]
  exact ⟨hpass, hi, full_reduction_of_irreducible 0 t hi⟩

/-- Witness of C25 at `lambda x. x y`. -/
theorem normal_form_is_fixpoint_witness :
    Full_reduction_impl (.lambda_node names.x (.application_node (.var names.x) (.var names.y)))
      = .lambda_node names.x (.application_node (.var names.x) (.var names.y))
    ∧ evaluate 1 (.lambda_node names.x (.application_node (.var names.x) (.var names.y)))
      = some (.lambda_node names.x (.application_node (.var names.x) (.var names.y))) :=
  ⟨by decide,
    (normal_form_is_fixpoint
      (.lambda_node names.x (.application_node (.var names.x) (.var names.y)))
      (by
        intro h
        cases h with
        | inLambda h2 => cases h2 <;> rename_i h3 <;> cases h3)).2.2⟩

/-- C26 as stated fails: in `lambda y. (x y')`, substituting `y` for `x` mints the
shadow `y'` for the binder `y` and gives `lambda y'. (y y')`, where the shadow
that the substitution created is a Variable occurrence of the result. -/
theorem substitution_leaves_counterexample :
    substitution_result
        (.lambda_node names.y
          (.application_node (.var names.x) (.var (.shadowed names.y))))
        ⟨names.x, .var names.y⟩
      = .lambda_node (.shadowed names.y)
          (.application_node (.var names.y) (.var (.shadowed names.y)))
    ∧ Ident.shadowed names.y ∈ variable_leaves (substitution_result
        (.lambda_node names.y
          (.application_node (.var names.x) (.var (.shadowed names.y))))
        ⟨names.x, .var names.y⟩) := by
  decide

/-- C26 (shadows are minted in binder position only), amended. For every term
`t`, target `x` and replacement `r`, every Variable leaf of
`substitute(t, (x, r))` is a Variable leaf of `t` or of `r`; so a shadow
identifier is a Variable occurrence of the result only when it already is a
Variable leaf of `t` or of `r`, whatever binders the substitution shadows. -/
theorem substitution_leaves (t : Term) (x : Ident) (r : Term) :
    (∀ w, w ∈ variable_leaves (substitution_result t ⟨x, r⟩) →
        w ∈ variable_leaves t ∨ w ∈ variable_leaves r)
    ∧ (∀ p : Ident, Ident.shadowed p ∉ variable_leaves t →
        Ident.shadowed p ∉ variable_leaves r →
        Ident.shadowed p ∉ variable_leaves (substitution_result t ⟨x, r⟩)) := by
  have h := fun w => variable_leaves_substitution t ⟨x, r⟩ w
  refine ⟨h, ?_⟩
  intro p hpt hpr hc
  rcases h _ hc with h2 | h2
  · exact hpt h2
  · exact hpr h2

/-- Witness of amended C26 at `(lambda y. x y)` with `y` substituted for `x`: the binder
becomes the shadow `y'` and the leaves are `y, y`. -/
theorem substitution_leaves_witness :
    substitution_result
        (.lambda_node names.y (.application_node (.var names.x) (.var names.y)))
        ⟨names.x, .var names.y⟩
      = .lambda_node (.shadowed names.y)
          (.application_node (.var names.y) (.var names.y))
    ∧ (Ident.shadowed names.y ∈ variable_leaves (substitution_result
          (.lambda_node names.y (.application_node (.var names.x) (.var names.y)))
          ⟨names.x, .var names.y⟩) → False) :=
  ⟨by decide,
    (substitution_leaves
      (.lambda_node names.y (.application_node (.var names.x) (.var names.y)))
      names.x (.var names.y)).2 names.y (by decide) (by decide)⟩

end nightly_lambda
